import Mathlib

/-
  Verification development for the `crosswalk` data-preparation module
  (`src/crosswalk/data.py`, class `CWData`).

  The embedding models:
  * `numpy.argsort` with its default `quicksort` kind, as implemented by
    numpy's `aquicksort` (introsort: median-of-3 quicksort partitions for
    segments longer than `SMALL_QUICKSORT = 15`, an insertion-sort pass for
    small segments, an explicit segment stack, and an `aheapsort` fallback
    when the shared depth budget `2 * msb(n)` is exhausted).  The index
    array `tosort` is a `List ℕ`, keys are exact rationals (`ℚ`), and the
    iterative C loops are written with explicit fuel.  Fuel amounts are
    chosen so that the loops can always run to completion (each partition
    retires one pivot, so at most `n` partitions, `n + 1` pops and `n + 1`
    leaf passes occur; pointer scans are capped at the segment ends, which
    the classical sentinel invariants of Hoare partitioning make
    unreachable for total key orders such as `ℚ`).
  * the `CWData` constructor (`__init__`), its `check` assertions and
    `sort_by_study_id`, including the in-place mutation of the
    caller-supplied covariate dictionary.
  * the two leaf utilities `utils.array_structure` and
    `utils.is_numerical_array`, whose source is not part of the
    repository snapshot; these are modelled from the specification
    (§4.2 Group Structure Resolver, §4.3 Array Validator).
-/

namespace CrossWalk

/-! ### numpy `aquicksort` model (indirect sort producing `tosort`) -/

/-- Key of index `i`: `v[i]` with numpy-irrelevant out-of-range default `0`. -/
def keyAt (v : List ℚ) (i : ℕ) : ℚ := v.getD i 0

/-- `TYPE_LT(v[i], v[j])` — strict key comparison of two stored indices. -/
def keyLt (v : List ℚ) (i j : ℕ) : Bool := decide (keyAt v i < keyAt v j)

/-- `INTP_SWAP(*p, *q)` on the index list: exchange the entries at
positions `i` and `j`. -/
def lswap (a : List ℕ) (i j : ℕ) : List ℕ :=
  (a.set i (a.getD j 0)).set j (a.getD i 0)

/-- `do ++pi; while (TYPE_LT(v[*pi], vp));` — advance the lower scan
pointer.  The fuel caps the scan at the right end of the segment, a cap the
pivot sentinel at `pr - 1` makes unreachable. -/
def scanUp (v : List ℚ) (vp : ℚ) (a : List ℕ) : ℕ → ℕ → ℕ
  | 0, pi => pi + 1
  | f + 1, pi =>
    if decide (keyAt v (a.getD (pi + 1) 0) < vp) then scanUp v vp a f (pi + 1)
    else pi + 1

/-- `do --pj; while (TYPE_LT(vp, v[*pj]));` — retreat the upper scan
pointer; the sentinel at `pl` stops it inside the segment. -/
def scanDown (v : List ℚ) (vp : ℚ) (a : List ℕ) : ℕ → ℕ → ℕ
  | 0, pj => pj - 1
  | f + 1, pj =>
    if decide (vp < keyAt v (a.getD (pj - 1) 0)) then scanDown v vp a f (pj - 1)
    else pj - 1

/-- The inner exchange loop of the partition step:
`for (;;) { do ++pi ...; do --pj ...; if (pi >= pj) break; SWAP(*pi, *pj); }`
returning the updated index list and the final `pi`. -/
def partLoop (v : List ℚ) (vp : ℚ) (pr : ℕ) : ℕ → List ℕ → ℕ → ℕ → List ℕ × ℕ
  | 0, a, pi, _ => (a, pi)
  | f + 1, a, pi, pj =>
    let pi2 := scanUp v vp a (pr - 1 - pi) pi
    let pj2 := scanDown v vp a pj pj
    if pj2 ≤ pi2 then (a, pi2)
    else partLoop v vp pr f (lswap a pi2 pj2) pi2 pj2

/-- One median-of-3 quicksort partition of the segment `[pl, pr]`:
median-of-3 pivot selection with three conditional swaps, pivot parked at
`pr - 1`, the exchange loop, and the final swap moving the pivot to its
resting position `pi`. -/
def qsPartition (v : List ℚ) (a0 : List ℕ) (pl pr : ℕ) : List ℕ × ℕ :=
  let pm := pl + (pr - pl) / 2
  let a1 := if keyLt v (a0.getD pm 0) (a0.getD pl 0) then lswap a0 pm pl else a0
  let a2 := if keyLt v (a1.getD pr 0) (a1.getD pm 0) then lswap a1 pr pm else a1
  let a3 := if keyLt v (a2.getD pm 0) (a2.getD pl 0) then lswap a2 pm pl else a2
  let vp := keyAt v (a3.getD pm 0)
  let a4 := lswap a3 pm (pr - 1)
  let r := partLoop v vp pr (pr + 1) a4 pl (pr - 1)
  (lswap r.1 r.2 (pr - 1), r.2)

/-- The shift-and-place inner loop of the insertion sort:
`while (pj > pl && TYPE_LT(vp, v[*pk])) { *pj-- = *pk--; } *pj = vi;`
with `j` the current write position `pj`. -/
def insertInner (v : List ℚ) (pl vi : ℕ) : List ℕ → ℕ → List ℕ
  | a, 0 => a.set 0 vi
  | a, j + 1 =>
    if pl < j + 1 ∧ keyAt v vi < keyAt v (a.getD j 0) then
      insertInner v pl vi (a.set (j + 1) (a.getD j 0)) j
    else a.set (j + 1) vi

/-- The insertion-sort pass over the segment `[pl, pr]`:
`for (pi = pl + 1; pi <= pr; ++pi) { vi = *pi; ... }`. -/
def insSortSeg (v : List ℚ) (pl pr : ℕ) (a : List ℕ) : List ℕ :=
  (List.range' (pl + 1) (pr + 1 - (pl + 1))).foldl
    (fun b pi => insertInner v pl (b.getD pi 0) b pi) a

/-! `aheapsort` operates 1-based on the segment starting at `pl`
(`a = tosort - 1` in the C source); position `i` lives at list index
`pl + i - 1`. -/

/-- 1-based read inside the heapsort segment. -/
def hGet (a : List ℕ) (pl i : ℕ) : ℕ := a.getD (pl + i - 1) 0

/-- 1-based write inside the heapsort segment. -/
def hSet (a : List ℕ) (pl i x : ℕ) : List ℕ := a.set (pl + i - 1) x

/-- The sift-down loop shared by both heapsort phases:
`for (;  j <= n;) { if (j < n && LT(v[a[j]], v[a[j+1]])) j++;
if (LT(v[tmp], v[a[j]])) { a[i] = a[j]; i = j; j += j; } else break; }`
returning the list and the final hole position `i`. -/
def siftLoop (v : List ℚ) (pl : ℕ) (tk : ℚ) (nn : ℕ) : ℕ → List ℕ → ℕ → ℕ → List ℕ × ℕ
  | 0, a, i, _ => (a, i)
  | f + 1, a, i, j =>
    if j ≤ nn then
      let j2 := if j < nn ∧ keyLt v (hGet a pl j) (hGet a pl (j + 1)) then j + 1 else j
      if decide (tk < keyAt v (hGet a pl j2)) then
        siftLoop v pl tk nn f (hSet a pl i (hGet a pl j2)) j2 (2 * j2)
      else (a, i)
    else (a, i)

/-- A complete sift: run the sift-down loop for the saved entry `tmp`
starting at hole `i` with child `j`, then place `tmp` in the final hole
(`a[i] = tmp`). -/
def siftPlace (v : List ℚ) (pl nn tmp i j : ℕ) (a : List ℕ) : List ℕ :=
  let r := siftLoop v pl (keyAt v tmp) nn (nn + 2) a i j
  hSet r.1 pl r.2 tmp

/-- Heapify phase: `for (l = n >> 1; l > 0; --l)` sift `a[l]` down. -/
def heapBuild (v : List ℚ) (pl nn : ℕ) : ℕ → List ℕ → List ℕ
  | 0, a => a
  | l + 1, a =>
    heapBuild v pl nn l (siftPlace v pl nn (hGet a pl (l + 1)) (l + 1) (2 * (l + 1)) a)

/-- Extraction phase: `for (; n > 1;) { tmp = a[n]; a[n] = a[1]; n -= 1;
sift...; a[i] = tmp; }`. -/
def heapExtract (v : List ℚ) (pl : ℕ) : ℕ → List ℕ → List ℕ
  | 0, a => a
  | 1, a => a
  | n + 2, a =>
    let tmp := hGet a pl (n + 2)
    let a1 := hSet a pl (n + 2) (hGet a pl 1)
    heapExtract v pl (n + 1) (siftPlace v pl (n + 1) tmp 1 2 a1)

/-- `aheapsort` on the segment `[pl, pr]` (the introsort depth-limit
fallback). -/
def aheapsort (v : List ℚ) (a : List ℕ) (pl pr : ℕ) : List ℕ :=
  let nn := pr - pl + 1
  heapExtract v pl nn (heapBuild v pl nn (nn / 2) a)

/-- The driver loop of `aquicksort`: partition segments longer than
`SMALL_QUICKSORT = 15` (post-decrementing the shared depth budget and
falling back to `aheapsort` when it is spent, exactly as
`if (depth_limit-- < 0)` does), push the larger half, continue with the
smaller; finish small segments with the insertion-sort pass and pop the
explicit stack. -/
def qsLoop (v : List ℚ) : ℕ → List ℕ → ℕ → ℕ → List (ℕ × ℕ) → ℤ → List ℕ
  | 0, a, _, _, _, _ => a
  | f + 1, a, pl, pr, stack, depth =>
    if 15 < pr - pl then
      if depth < 0 then
        let a2 := aheapsort v a pl pr
        match stack with
        | [] => a2
        | (pl2, pr2) :: st => qsLoop v f a2 pl2 pr2 st (depth - 1)
      else
        let r := qsPartition v a pl pr
        if r.2 - pl < pr - r.2 then
          qsLoop v f r.1 pl (r.2 - 1) ((r.2 + 1, pr) :: stack) (depth - 1)
        else
          qsLoop v f r.1 (r.2 + 1) pr ((pl, r.2 - 1) :: stack) (depth - 1)
    else
      let a2 := insSortSeg v pl pr a
      match stack with
      | [] => a2
      | (pl2, pr2) :: st => qsLoop v f a2 pl2 pr2 st depth

/-- The halving loop of `npy_get_msb` with explicit fuel (`n` halvings
always suffice). -/
def msbAux : ℕ → ℕ → ℕ
  | 0, _ => 0
  | f + 1, n => if n ≥ 2 then msbAux f (n / 2) + 1 else 0

/-- `npy_get_msb`: the position of the highest set bit (`⌊log₂ n⌋` for
positive `n`, `0` for `n = 0`). -/
def npMsb (n : ℕ) : ℕ := msbAux n n

/-- `numpy.argsort(v)` with the default `quicksort` kind: run `aquicksort`
on the identity index array with depth budget `npy_get_msb(n) * 2`. -/
def argsortNumpy (v : List ℚ) : List ℕ :=
  qsLoop v (3 * v.length + 8) (List.range v.length) 0 (v.length - 1) []
    (2 * (npMsb v.length : ℤ))

/-! ### The index array stays a permutation of `range n`

Every mutation performed by `aquicksort` — swaps, the insertion shift
chains, the heapsort sift chains — preserves the multiset of stored
indices.  The lemmas below chain this through the driver loop. -/

theorem set_getD_self : ∀ (l : List α) (i : ℕ) (d : α), i < l.length →
    l.set i (l.getD i d) = l
  | [], i, _, h => by simp at h
  | _ :: _, 0, _, _ => by simp
  | x :: t, i + 1, d, h => by
    simp only [List.getD_cons_succ, List.set_cons_succ]
    rw [set_getD_self t i d (by simpa using h)]

theorem getD_cons_set_perm : ∀ (t : List α) (m : ℕ) (d x : α), m < t.length →
    (t.getD m d :: t.set m x).Perm (x :: t)
  | y :: t', 0, _, x, _ => by
    simpa using List.Perm.swap x y t'
  | y :: t', m + 1, d, x, h => by
    simp only [List.getD_cons_succ, List.set_cons_succ]
    refine (List.Perm.swap _ _ _).trans (List.Perm.trans ?_ (List.Perm.swap _ _ _))
    exact (getD_cons_set_perm t' m d x (by simpa using h)).cons y
  | [], _, _, _, h => by simp at h

theorem cons_set_swap_perm : ∀ (t : List α) (m : ℕ) (x b : α), m < t.length →
    (x :: t.set m b).Perm (b :: t.set m x)
  | y :: t', 0, x, b, _ => by
    simpa using List.Perm.swap b x t'
  | y :: t', m + 1, x, b, h => by
    simp only [List.set_cons_succ]
    refine (List.Perm.swap _ _ _).trans (List.Perm.trans ?_ (List.Perm.swap _ _ _))
    exact (cons_set_swap_perm t' m x b (by simpa using h)).cons y
  | [], _, _, _, h => by simp at h

/-- Writing `l[j]` over position `i` and then `x` over position `j` is,
up to permutation, just writing `x` over position `i`. -/
theorem set_set_comm_perm : ∀ (l : List α) (i j : ℕ) (d x : α), i ≠ j →
    i < l.length → j < l.length →
    ((l.set i (l.getD j d)).set j x).Perm (l.set i x)
  | [], _, _, _, _, _, hi, _ => by simp at hi
  | h :: t, 0, j + 1, d, x, _, _, hj => by
    simp only [List.getD_cons_succ, List.set_cons_zero, List.set_cons_succ]
    exact getD_cons_set_perm t j d x (by simpa using hj)
  | h :: t, i + 1, 0, d, x, _, hi, _ => by
    simp only [List.getD_cons_zero, List.set_cons_succ, List.set_cons_zero]
    exact cons_set_swap_perm t i x h (by simpa using hi)
  | h :: t, i + 1, j + 1, d, x, hij, hi, hj => by
    simp only [List.getD_cons_succ, List.set_cons_succ]
    exact (set_set_comm_perm t i j d x (by omega) (by simpa using hi)
      (by simpa using hj)).cons h
  | _ :: _, 0, 0, _, _, hij, _, _ => absurd rfl hij

theorem lswap_perm (a : List ℕ) (i j : ℕ) (hi : i < a.length) (hj : j < a.length) :
    (lswap a i j).Perm a := by
  unfold lswap
  rcases eq_or_ne i j with rfl | hij
  · rw [List.set_set, set_getD_self a i 0 hi]
  · exact (set_set_comm_perm a i j 0 (a.getD i 0) hij hi hj).trans
      (by rw [set_getD_self a i 0 hi])

theorem lswap_length (a : List ℕ) (i j : ℕ) : (lswap a i j).length = a.length := by
  simp [lswap]

theorem insertInner_perm (v : List ℚ) (pl vi : ℕ) :
    ∀ (a : List ℕ) (j : ℕ), j < a.length →
    (insertInner v pl vi a j).Perm (a.set j vi)
  | a, 0, _ => by rw [insertInner]
  | a, j + 1, hj => by
    rw [insertInner]
    split
    · refine (insertInner_perm v pl vi (a.set (j + 1) (a.getD j 0)) j
        (by simp; omega)).trans ?_
      have h1 : ((a.set (j + 1) (a.getD j 0)).set j vi).Perm (a.set (j + 1) vi) :=
        set_set_comm_perm a (j + 1) j 0 vi (by omega) hj (by omega)
      exact h1
    · exact List.Perm.refl _

theorem foldl_insert_perm (v : List ℚ) (pl : ℕ) :
    ∀ (ps : List ℕ) (b : List ℕ), (∀ pi ∈ ps, pi < b.length) →
    (ps.foldl (fun b pi => insertInner v pl (b.getD pi 0) b pi) b).Perm b
  | [], b, _ => List.Perm.refl b
  | pi :: ps, b, hb => by
    simp only [List.foldl_cons]
    have hpi : pi < b.length := hb pi (List.mem_cons_self pi ps)
    have hstep : (insertInner v pl (b.getD pi 0) b pi).Perm b := by
      refine (insertInner_perm v pl _ b pi hpi).trans ?_
      rw [set_getD_self b pi 0 hpi]
    refine (foldl_insert_perm v pl ps _ ?_).trans hstep
    intro q hq
    rw [hstep.length_eq]
    exact hb q (List.mem_cons_of_mem pi hq)

theorem insSortSeg_perm (v : List ℚ) (pl pr : ℕ) (a : List ℕ) (h : pr < a.length) :
    (insSortSeg v pl pr a).Perm a := by
  apply foldl_insert_perm
  intro pi hpi
  rw [List.mem_range'] at hpi
  omega

theorem siftLoop_place_perm (v : List ℚ) (pl : ℕ) (tk : ℚ) (nn : ℕ) (tmp : ℕ) :
    ∀ (f : ℕ) (a : List ℕ) (i j : ℕ), 1 ≤ i → i < j → i ≤ nn →
    pl + nn - 1 < a.length →
    (hSet (siftLoop v pl tk nn f a i j).1 pl (siftLoop v pl tk nn f a i j).2 tmp).Perm
      (hSet a pl i tmp)
  | 0, _, _, _, _, _, _, _ => List.Perm.refl _
  | f + 1, a, i, j, hi1, hij, hin, hlen => by
    simp only [siftLoop]
    split
    · set j2 := if j < nn ∧ keyLt v (hGet a pl j) (hGet a pl (j + 1)) then j + 1 else j
        with hj2def
      have hj2n : j ≤ nn → j2 ≤ nn := by rw [hj2def]; split <;> omega
      have hij2 : i < j2 := by rw [hj2def]; split <;> omega
      split
      · next hjn _ =>
        have hrec := siftLoop_place_perm v pl tk nn tmp f
          (hSet a pl i (hGet a pl j2)) j2 (2 * j2) (by omega) (by omega) (hj2n hjn)
          (by simpa [hSet] using hlen)
        refine hrec.trans ?_
        unfold hSet hGet
        exact set_set_comm_perm a (pl + i - 1) (pl + j2 - 1) 0 tmp
          (by omega) (by omega) (by omega)
      · exact List.Perm.refl _
    · exact List.Perm.refl _

theorem siftPlace_perm (v : List ℚ) (pl nn tmp i j : ℕ) (a : List ℕ)
    (hi1 : 1 ≤ i) (hij : i < j) (hin : i ≤ nn) (hlen : pl + nn - 1 < a.length) :
    (siftPlace v pl nn tmp i j a).Perm (hSet a pl i tmp) := by
  unfold siftPlace
  exact siftLoop_place_perm v pl (keyAt v tmp) nn tmp (nn + 2) a i j hi1 hij hin hlen

theorem heapBuild_perm (v : List ℚ) (pl nn : ℕ) :
    ∀ (c : ℕ) (a : List ℕ), c ≤ nn → pl + nn - 1 < a.length →
    (heapBuild v pl nn c a).Perm a
  | 0, a, _, _ => List.Perm.refl a
  | l + 1, a, hc, hlen => by
    rw [heapBuild]
    have hstep : (siftPlace v pl nn (hGet a pl (l + 1)) (l + 1) (2 * (l + 1)) a).Perm a := by
      refine (siftPlace_perm v pl nn _ (l + 1) _ a (by omega) (by omega) hc hlen).trans ?_
      unfold hSet hGet
      rw [set_getD_self _ _ 0 (by omega)]
    refine (heapBuild_perm v pl nn l _ (by omega) ?_).trans hstep
    rw [hstep.length_eq]; exact hlen

theorem heapExtract_perm (v : List ℚ) (pl : ℕ) :
    ∀ (m : ℕ) (a : List ℕ), pl + m - 1 < a.length →
    (heapExtract v pl m a).Perm a
  | 0, a, _ => List.Perm.refl a
  | 1, a, _ => List.Perm.refl a
  | n + 2, a, hlen => by
    simp only [heapExtract]
    have hstep :
        (siftPlace v pl (n + 1) (hGet a pl (n + 2)) 1 2 (hSet a pl (n + 2) (hGet a pl 1))).Perm
          a := by
      refine (siftPlace_perm v pl (n + 1) _ 1 2 _ le_rfl (by omega) (by omega)
        (by simp only [hSet, List.length_set]; omega)).trans ?_
      unfold hSet hGet
      have e1 : pl + 1 - 1 = pl := by omega
      have e2 : pl + (n + 2) - 1 = pl + n + 1 := by omega
      rw [e1, e2]
      exact (set_set_comm_perm a (pl + n + 1) pl 0 (a.getD (pl + n + 1) 0)
        (by omega) (by omega) (by omega)).trans
        (by rw [set_getD_self a _ 0 (by omega)])
    refine (heapExtract_perm v pl (n + 1) _ ?_).trans hstep
    rw [hstep.length_eq]; omega

theorem aheapsort_perm (v : List ℚ) (a : List ℕ) (pl pr : ℕ)
    (hpl : pl ≤ pr) (hpr : pr < a.length) :
    (aheapsort v a pl pr).Perm a := by
  unfold aheapsort
  have hb : (heapBuild v pl (pr - pl + 1) ((pr - pl + 1) / 2) a).Perm a :=
    heapBuild_perm v pl (pr - pl + 1) ((pr - pl + 1) / 2) a (by omega) (by omega)
  refine (heapExtract_perm v pl (pr - pl + 1) _ ?_).trans hb
  rw [hb.length_eq]; omega

theorem scanDown_le (v : List ℚ) (vp : ℚ) (a : List ℕ) :
    ∀ (f : ℕ) (pj : ℕ), scanDown v vp a f pj ≤ pj - 1
  | 0, _ => le_rfl
  | f + 1, pj => by
    rw [scanDown]
    split
    · exact le_trans (scanDown_le v vp a f (pj - 1)) (by omega)
    · exact le_rfl

theorem scanUp_le (v : List ℚ) (vp : ℚ) (a : List ℕ) :
    ∀ (f : ℕ) (pi : ℕ), scanUp v vp a f pi ≤ pi + f + 1
  | 0, _ => le_rfl
  | f + 1, pi => by
    rw [scanUp]
    split
    · exact le_trans (scanUp_le v vp a f (pi + 1)) (by omega)
    · omega

theorem partLoop_le (v : List ℚ) (vp : ℚ) (pr : ℕ) :
    ∀ (f : ℕ) (a : List ℕ) (pi pj : ℕ), pi + 1 ≤ pr → pj ≤ pr →
    (partLoop v vp pr f a pi pj).2 ≤ pr
  | 0, _, _, _, hpi, _ => by
    simp only [partLoop]; omega
  | f + 1, a, pi, pj, hpi, hpj => by
    simp only [partLoop]
    have hup : scanUp v vp a (pr - 1 - pi) pi ≤ pr :=
      le_trans (scanUp_le v vp a (pr - 1 - pi) pi) (by omega)
    split
    · exact hup
    · next hlt =>
      have hdown : scanDown v vp a pj pj ≤ pj - 1 := scanDown_le v vp a pj pj
      exact partLoop_le v vp pr f _ _ _ (by omega) (by omega)

theorem partLoop_perm (v : List ℚ) (vp : ℚ) (pr : ℕ) :
    ∀ (f : ℕ) (a : List ℕ) (pi pj : ℕ), pj < a.length →
    (partLoop v vp pr f a pi pj).1.Perm a
  | 0, a, _, _, _ => List.Perm.refl a
  | f + 1, a, pi, pj, hpj => by
    simp only [partLoop]
    split
    · exact List.Perm.refl a
    · next hlt =>
      have hdown : scanDown v vp a pj pj ≤ pj - 1 := scanDown_le v vp a pj pj
      have hsw : (lswap a (scanUp v vp a (pr - 1 - pi) pi) (scanDown v vp a pj pj)).Perm a :=
        lswap_perm a _ _ (by omega) (by omega)
      refine (partLoop_perm v vp pr f _ _ _ ?_).trans hsw
      rw [hsw.length_eq]; omega

theorem qsPartition_perm_le (v : List ℚ) (a : List ℕ) (pl pr : ℕ)
    (hplr : pl + 1 ≤ pr) (hpr : pr < a.length) :
    (qsPartition v a pl pr).1.Perm a ∧ (qsPartition v a pl pr).2 ≤ pr := by
  unfold qsPartition
  dsimp only
  set pm := pl + (pr - pl) / 2 with hpm
  have hpmle : pm ≤ pr := by omega
  set a1 := if keyLt v (a.getD pm 0) (a.getD pl 0) then lswap a pm pl else a with ha1
  have h1 : a1.Perm a := by
    rw [ha1]; split
    · exact lswap_perm a _ _ (by omega) (by omega)
    · exact List.Perm.refl a
  set a2 := if keyLt v (a1.getD pr 0) (a1.getD pm 0) then lswap a1 pr pm else a1 with ha2
  have h2 : a2.Perm a := by
    rw [ha2]; split
    · exact (lswap_perm a1 _ _ (by rw [h1.length_eq]; omega)
        (by rw [h1.length_eq]; omega)).trans h1
    · exact h1
  set a3 := if keyLt v (a2.getD pm 0) (a2.getD pl 0) then lswap a2 pm pl else a2 with ha3
  have h3 : a3.Perm a := by
    rw [ha3]; split
    · exact (lswap_perm a2 _ _ (by rw [h2.length_eq]; omega)
        (by rw [h2.length_eq]; omega)).trans h2
    · exact h2
  set a4 := lswap a3 pm (pr - 1) with ha4
  have h4 : a4.Perm a := by
    rw [ha4]
    exact (lswap_perm a3 _ _ (by rw [h3.length_eq]; omega)
      (by rw [h3.length_eq]; omega)).trans h3
  set vp := keyAt v (a3.getD pm 0) with hvp
  have hloop : (partLoop v vp pr (pr + 1) a4 pl (pr - 1)).1.Perm a :=
    (partLoop_perm v vp pr (pr + 1) a4 pl (pr - 1)
      (by rw [h4.length_eq]; omega)).trans h4
  have hle : (partLoop v vp pr (pr + 1) a4 pl (pr - 1)).2 ≤ pr :=
    partLoop_le v vp pr (pr + 1) a4 pl (pr - 1) hplr (by omega)
  constructor
  · exact (lswap_perm _ _ _ (by rw [hloop.length_eq]; omega)
      (by rw [hloop.length_eq]; omega)).trans hloop
  · exact hle

theorem qsLoop_perm (v : List ℚ) :
    ∀ (f : ℕ) (a : List ℕ) (pl pr : ℕ) (stack : List (ℕ × ℕ)) (depth : ℤ),
    pr < a.length → (∀ pq ∈ stack, pq.2 < a.length) →
    (qsLoop v f a pl pr stack depth).Perm a
  | 0, a, _, _, _, _, _, _ => List.Perm.refl a
  | f + 1, a, pl, pr, stack, depth, hpr, hst => by
    simp only [qsLoop]
    split
    · next hbig =>
      split
      · have hh : (aheapsort v a pl pr).Perm a := aheapsort_perm v a pl pr (by omega) hpr
        rcases stack with _ | ⟨⟨pl2, pr2⟩, st⟩
        · exact hh
        · refine (qsLoop_perm v f _ pl2 pr2 st _ ?_ ?_).trans hh
          · rw [hh.length_eq]
            exact hst (pl2, pr2) (List.mem_cons_self _ _)
          · intro pq hpq
            rw [hh.length_eq]
            exact hst pq (List.mem_cons_of_mem _ hpq)
      · have hp := qsPartition_perm_le v a pl pr (by omega) hpr
        split
        · refine (qsLoop_perm v f _ pl ((qsPartition v a pl pr).2 - 1) _ _ ?_ ?_).trans hp.1
          · rw [hp.1.length_eq]; omega
          · intro pq hpq
            rw [hp.1.length_eq]
            rcases List.mem_cons.mp hpq with rfl | hmem
            · exact hpr
            · exact hst pq hmem
        · refine (qsLoop_perm v f _ ((qsPartition v a pl pr).2 + 1) pr _ _ ?_ ?_).trans hp.1
          · rw [hp.1.length_eq]; omega
          · intro pq hpq
            rw [hp.1.length_eq]
            rcases List.mem_cons.mp hpq with rfl | hmem
            · simp only; omega
            · exact hst pq hmem
    · have hi : (insSortSeg v pl pr a).Perm a := insSortSeg_perm v pl pr a hpr
      rcases stack with _ | ⟨⟨pl2, pr2⟩, st⟩
      · exact hi
      · refine (qsLoop_perm v f _ pl2 pr2 st _ ?_ ?_).trans hi
        · rw [hi.length_eq]
          exact hst (pl2, pr2) (List.mem_cons_self _ _)
        · intro pq hpq
          rw [hi.length_eq]
          exact hst pq (List.mem_cons_of_mem _ hpq)

/-- `np.argsort` always returns a permutation of `[0, ..., n-1]`. -/
theorem argsortNumpy_perm (v : List ℚ) : (argsortNumpy v).Perm (List.range v.length) := by
  rcases Nat.eq_zero_or_pos v.length with h0 | hpos
  · rw [List.length_eq_zero] at h0
    subst h0
    decide
  · exact qsLoop_perm v (3 * v.length + 8) (List.range v.length) 0 (v.length - 1) []
      (2 * (npMsb v.length : ℤ)) (by rw [List.length_range]; omega)
      (by intro pq hpq; simp at hpq)

theorem argsortNumpy_length (v : List ℚ) : (argsortNumpy v).length = v.length :=
  (argsortNumpy_perm v).length_eq.trans (List.length_range _)

theorem argsortNumpy_mem_lt (v : List ℚ) {i : ℕ} (h : i ∈ argsortNumpy v) :
    i < v.length := by
  have := (argsortNumpy_perm v).mem_iff.mp h
  simpa using this

theorem argsortNumpy_nodup (v : List ℚ) : (argsortNumpy v).Nodup :=
  ((argsortNumpy_perm v).nodup_iff).mpr (List.nodup_range _)

/-! ### The small-array path: insertion sort, hence sorted and stable

For `n ≤ 16` the driver loop performs exactly one insertion-sort pass over
the whole array (`pr - pl = n - 1 ≤ 15`).  The shift-and-place loop is
characterised as a splice around the scanned suffix, from which sortedness
and stability of the produced index order follow. -/

theorem take_set_of_le {α : Type} (x : α) :
    ∀ (l : List α) (i n : ℕ), n ≤ i → (l.set i x).take n = l.take n
  | [], _, _, _ => by simp
  | _ :: _, _, 0, _ => by simp
  | h :: t, i + 1, n + 1, hni => by
    simp only [List.set_cons_succ, List.take_succ_cons]
    rw [take_set_of_le x t i n (by omega)]
  | _ :: _, 0, n + 1, hni => by omega

theorem rdropWhile_append_rtakeWhile {α : Type} (p : α → Bool) (l : List α) :
    l.rdropWhile p ++ l.rtakeWhile p = l := by
  unfold List.rdropWhile List.rtakeWhile
  rw [← List.reverse_append, List.takeWhile_append_dropWhile, List.reverse_reverse]

/-- The comparison used while scanning left during the insertion of `vi`. -/
def insP (v : List ℚ) (vi : ℕ) : ℕ → Bool := fun w => decide (keyAt v vi < keyAt v w)

/-- Characterisation of the shift-and-place loop (with `pl = 0`): the
scanned suffix of the prefix `a.take j` slides right one slot and `vi`
lands in the hole. -/
theorem insertInner_char (v : List ℚ) (vi : ℕ) :
    ∀ (a : List ℕ) (j : ℕ), j < a.length →
    insertInner v 0 vi a j =
      (a.take j).rdropWhile (insP v vi) ++
        vi :: ((a.take j).rtakeWhile (insP v vi) ++ a.drop (j + 1))
  | a, 0, h => by
    rcases a with _ | ⟨x, t⟩
    · simp at h
    · simp [insertInner]
  | a, j + 1, h => by
    have htake : a.take (j + 1) = a.take j ++ [a.getD j 0] := by
      rw [List.getD_eq_getElem a 0 (by omega), ← List.take_concat_get a j (by omega)]
      simp
    rw [insertInner]
    by_cases hcmp : keyAt v vi < keyAt v (a.getD j 0)
    · rw [if_pos ⟨by omega, hcmp⟩]
      have hlen : j < (a.set (j + 1) (a.getD j 0)).length := by simp; omega
      rw [insertInner_char v vi (a.set (j + 1) (a.getD j 0)) j hlen]
      rw [take_set_of_le _ a (j + 1) j (by omega)]
      have hdrop : (a.set (j + 1) (a.getD j 0)).drop (j + 1) =
          a.getD j 0 :: a.drop (j + 1 + 1) := by
        rw [List.drop_set, if_neg (by omega), Nat.sub_self,
          List.drop_eq_getElem_cons (show j + 1 < a.length by omega), List.set_cons_zero,
          List.getD_eq_getElem a 0 (show j < a.length by omega)]
      rw [hdrop, htake]
      rw [List.rdropWhile_concat_pos _ _ _ (by simpa [insP] using hcmp),
        List.rtakeWhile_concat_pos _ _ _ (by simpa [insP] using hcmp)]
      simp
    · rw [if_neg (fun hc => hcmp hc.2)]
      rw [htake]
      rw [List.rdropWhile_concat_neg _ _ _ (by simpa [insP] using hcmp),
        List.rtakeWhile_concat_neg _ _ _ (by simpa [insP] using hcmp)]
      rw [List.set_eq_take_append_cons_drop, if_pos h, htake]
      simp

/-- The total index order realised by a stable sort on the keys: compare
keys first, break ties by position. -/
def idxLe (v : List ℚ) (i j : ℕ) : Prop :=
  keyAt v i < keyAt v j ∨ (keyAt v i = keyAt v j ∧ i ≤ j)

theorem sorted_key_le_getLast (v : List ℚ) :
    ∀ (l : List ℕ), l.Sorted (idxLe v) → ∀ x ∈ l, ∀ (hne : l ≠ []),
    keyAt v x ≤ keyAt v (l.getLast hne)
  | [], _, x, hx, _ => by simp at hx
  | [y], _, x, hx, _ => by
    simp at hx
    subst hx
    simp [List.getLast]
  | y :: z :: t, hs, x, hx, hne => by
    rw [List.getLast_cons (by simp)]
    rcases List.mem_cons.mp hx with rfl | hx2
    · have hrel := List.rel_of_sorted_cons hs (List.getLast (z :: t) (by simp))
        (List.getLast_mem _)
      rcases hrel with hlt | ⟨heq, _⟩
      · exact le_of_lt hlt
      · exact le_of_eq heq
    · exact sorted_key_le_getLast v (z :: t) hs.of_cons x hx2 (by simp)

theorem getD_drop {α : Type} (l : List α) (d : α) (i j : ℕ) :
    (l.drop i).getD j d = l.getD (i + j) d := by
  rw [List.getD_eq_getElem?_getD, List.getD_eq_getElem?_getD, List.getElem?_drop]

/-- For `n ≤ 16` the driver loop is exactly one insertion-sort pass over
the full array. -/
theorem argsortNumpy_small (v : List ℚ) (h16 : v.length ≤ 16) :
    argsortNumpy v = insSortSeg v 0 (v.length - 1) (List.range v.length) := by
  unfold argsortNumpy
  rw [show 3 * v.length + 8 = (3 * v.length + 7) + 1 from rfl, qsLoop]
  rw [if_neg (by omega)]

/-- The state of the single insertion pass after its first `k` iterations. -/
def insState (v : List ℚ) (n k : ℕ) : List ℕ :=
  (List.range' 1 k).foldl (fun b pi => insertInner v 0 (b.getD pi 0) b pi) (List.range n)

theorem insState_inv (v : List ℚ) (n : ℕ) (hn : 1 ≤ n) :
    ∀ (k : ℕ), k < n →
    (insState v n k).length = n ∧
    (∀ m, k < m → m < n → (insState v n k).getD m 0 = m) ∧
    ((insState v n k).take (k + 1)).Perm (List.range (k + 1)) ∧
    ((insState v n k).take (k + 1)).Sorted (idxLe v)
  | 0, _ => by
    refine ⟨by simp [insState], ?_, ?_, ?_⟩
    · intro m _ hm
      simp only [insState, List.range'_zero, List.foldl_nil]
      rw [List.getD_eq_getElem _ _ (by simpa using hm)]
      exact List.getElem_range m _
    · simp only [insState, List.range'_zero, List.foldl_nil, List.take_range]
      rw [show 1 ⊓ n = 1 by omega]
    · simp only [insState, List.range'_zero, List.foldl_nil, List.take_range]
      rw [show 1 ⊓ n = 1 by omega]
      exact List.sorted_singleton 0
  | k + 1, hk => by
    obtain ⟨hlen, hid, hperm, hsort⟩ := insState_inv v n hn k (by omega)
    set b := insState v n k with hb
    have hstep : insState v n (k + 1) = insertInner v 0 (b.getD (k + 1) 0) b (k + 1) := by
      rw [hb]
      unfold insState
      rw [List.range'_concat, List.foldl_concat,
        show 1 + 1 * k = k + 1 from by omega]
    have hvi : b.getD (k + 1) 0 = k + 1 := hid (k + 1) (by omega) hk
    set s := b.take (k + 1) with hs
    set p := insP v (k + 1) with hp
    have hsplit : s.rdropWhile p ++ s.rtakeWhile p = s := rdropWhile_append_rtakeWhile p s
    have hslen : s.length = k + 1 := by
      rw [hs, List.length_take]; omega
    have hchar : insState v n (k + 1) =
        (s.rdropWhile p ++ (k + 1) :: s.rtakeWhile p) ++ b.drop (k + 2) := by
      rw [hstep, hvi, insertInner_char v (k + 1) b (k + 1) (by omega)]
      simp [List.append_assoc]
    have hAlen : (s.rdropWhile p ++ (k + 1) :: s.rtakeWhile p).length = k + 2 := by
      have := congrArg List.length hsplit
      simp only [List.length_append] at this ⊢
      simp only [List.length_cons]
      omega
    have hmem_s : ∀ x ∈ s, x < k + 1 := by
      intro x hx
      have := hperm.mem_iff.mp hx
      simpa using this
    refine ⟨?_, ?_, ?_, ?_⟩
    · rw [hchar]
      simp only [List.length_append, List.length_drop, hAlen]
      omega
    · intro m hm1 hm2
      rw [hchar, List.getD_append_right _ _ _ _ (by omega), hAlen, getD_drop]
      rw [show k + 2 + (m - (k + 2)) = m from by omega]
      exact hid m (by omega) hm2
    · rw [hchar, List.take_left' hAlen]
      have h1 : ((k + 1) :: s.rtakeWhile p).Perm (s.rtakeWhile p ++ [k + 1]) :=
        (List.perm_append_singleton _ _).symm
      refine (List.Perm.append_left _ h1).trans ?_
      rw [← List.append_assoc, hsplit, List.range_succ]
      exact hperm.append_right [k + 1]
    · rw [hchar, List.take_left' hAlen]
      have hsort2 : (s.rdropWhile p ++ s.rtakeWhile p).Sorted (idxLe v) := by
        rw [hsplit]; exact hsort
      have hparts := List.pairwise_append.mp hsort2
      refine List.pairwise_append.mpr ⟨hparts.1, ?_, ?_⟩
      · refine List.pairwise_cons.mpr ⟨?_, hparts.2.1⟩
        intro y hy
        exact Or.inl (by simpa [hp, insP] using List.mem_rtakeWhile_imp hy)
      · intro x hx y hy
        rcases List.mem_cons.mp hy with rfl | hy2
        · have hxs : x ∈ s := (List.rdropWhile_prefix p s).sublist.subset hx
          have hxk : x < k + 1 := hmem_s x hxs
          have hne : s.rdropWhile p ≠ [] := List.ne_nil_of_mem hx
          have hlast : ¬ p ((s.rdropWhile p).getLast hne) = true :=
            List.rdropWhile_last_not p s hne
          have hlastle : keyAt v ((s.rdropWhile p).getLast hne) ≤ keyAt v (k + 1) := by
            have hfalse : p ((s.rdropWhile p).getLast hne) = false := by
              cases hpb : p ((s.rdropWhile p).getLast hne)
              · rfl
              · exact absurd hpb hlast
            have hdec : decide (keyAt v (k + 1) <
                keyAt v ((s.rdropWhile p).getLast hne)) = false := hfalse
            exact not_lt.mp (of_decide_eq_false hdec)
          have hxle : keyAt v x ≤ keyAt v ((s.rdropWhile p).getLast hne) :=
            sorted_key_le_getLast v _ hparts.1 x hx hne
          rcases lt_or_eq_of_le (le_trans hxle hlastle) with hlt | heq
          · exact Or.inl hlt
          · exact Or.inr ⟨heq, by omega⟩
        · exact hparts.2.2 x hx y hy2

/-- On at most 16 keys numpy's argsort is the canonical stable sort: the
produced index list is sorted for the key-then-position order. -/
theorem argsortNumpy_sorted_small (v : List ℚ) (h16 : v.length ≤ 16) :
    (argsortNumpy v).Sorted (idxLe v) := by
  rcases Nat.eq_zero_or_pos v.length with h0 | hpos
  · have hv : v = [] := List.length_eq_zero.mp h0
    subst hv
    have he : argsortNumpy ([] : List ℚ) = [] := by decide
    rw [he]
    exact List.sorted_nil
  · have hinv := insState_inv v v.length hpos (v.length - 1) (by omega)
    rw [argsortNumpy_small v h16]
    have heq : insSortSeg v 0 (v.length - 1) (List.range v.length) =
        insState v v.length (v.length - 1) := rfl
    rw [heq]
    have htake : (insState v v.length (v.length - 1)).take ((v.length - 1) + 1) =
        insState v v.length (v.length - 1) :=
      List.take_of_length_le (by rw [hinv.1]; omega)
    rw [← htake]
    exact hinv.2.2.2



/-! ### Full sortedness of `aquicksort`

Beyond the permutation property, the complete introsort sorts the keys for
every input length: each partition separates its segment around the final
pivot position, each leaf pass (the insertion sort, or the heapsort
fallback once the depth budget is spent) sorts its segment in place, and
the segments held by the driver's explicit stack tile the unfinished
region into disjoint intervals whose relative key order is already
final.  The development below proves each of these facts and chains them
through the driver loop. -/

theorem getD_set_self (l : List ℕ) (i x : ℕ) (h : i < l.length) :
    (l.set i x).getD i 0 = x := by
  rw [List.getD_eq_getElem?_getD, List.getElem?_set_self (by simpa using h)]
  rfl

theorem getD_set_ne (l : List ℕ) (i j x : ℕ) (h : i ≠ j) :
    (l.set i x).getD j 0 = l.getD j 0 := by
  rw [List.getD_eq_getElem?_getD, List.getD_eq_getElem?_getD, List.getElem?_set_ne h]

theorem lswap_getD_fst (a : List ℕ) (i j : ℕ) (hi : i < a.length) (hj : j < a.length) :
    (lswap a i j).getD i 0 = a.getD j 0 := by
  unfold lswap
  rcases eq_or_ne i j with rfl | hij
  · rw [getD_set_self _ _ _ (by simpa using hi)]
  · rw [getD_set_ne _ j i _ (Ne.symm hij), getD_set_self _ _ _ (by simpa using hi)]

theorem lswap_getD_snd (a : List ℕ) (i j : ℕ) (hj : j < a.length) :
    (lswap a i j).getD j 0 = a.getD i 0 := by
  unfold lswap
  rw [getD_set_self _ _ _ (by simpa using hj)]

theorem lswap_getD_other (a : List ℕ) (i j t : ℕ) (hti : t ≠ i) (htj : t ≠ j) :
    (lswap a i j).getD t 0 = a.getD t 0 := by
  unfold lswap
  rw [getD_set_ne _ j t _ (Ne.symm htj), getD_set_ne _ i t _ (Ne.symm hti)]

/-- The contiguous slice of positions `[s, e]` of the index array. -/
def seg (a : List ℕ) (s e : ℕ) : List ℕ := (a.drop s).take (e + 1 - s)

theorem seg_length (a : List ℕ) (s e : ℕ) :
    (seg a s e).length = min (e + 1 - s) (a.length - s) := by
  simp [seg]

theorem seg_getD (a : List ℕ) (s e k : ℕ) (hk : k < e + 1 - s) :
    (seg a s e).getD k 0 = a.getD (s + k) 0 := by
  unfold seg
  rw [List.getD_eq_getElem?_getD, List.getD_eq_getElem?_getD, List.getElem?_take,
    if_pos hk, List.getElem?_drop]

theorem getD_mem_seg (a : List ℕ) (s e p : ℕ) (hsp : s ≤ p) (hpe : p ≤ e)
    (hp : p < a.length) : a.getD p 0 ∈ seg a s e := by
  have hk : p - s < (seg a s e).length := by
    rw [seg_length]
    omega
  have := seg_getD a s e (p - s) (by omega)
  rw [show s + (p - s) = p from by omega] at this
  rw [← this]
  rw [List.getD_eq_getElem _ _ hk]
  exact List.getElem_mem _

theorem mem_seg_elim {a : List ℕ} {s e x : ℕ} (hx : x ∈ seg a s e) :
    ∃ p, s ≤ p ∧ p ≤ e ∧ p < a.length ∧ a.getD p 0 = x := by
  obtain ⟨k, hk, hkx⟩ := List.mem_iff_getElem.mp hx
  have hk2 : k < e + 1 - s ∧ k < a.length - s := by
    have := hk
    rw [seg_length] at this
    omega
  refine ⟨s + k, by omega, by omega, by omega, ?_⟩
  rw [← seg_getD a s e k hk2.1, List.getD_eq_getElem _ _ hk]
  exact hkx

theorem take_eq_of_getD_eq (a b : List ℕ) (n : ℕ) (hlen : a.length = b.length)
    (h : ∀ p, p < n → a.getD p 0 = b.getD p 0) : a.take n = b.take n := by
  apply List.ext_getElem (by simp [hlen])
  intro i h1 h2
  have hia : i < a.length := by simp at h1; omega
  have hib : i < b.length := by simp at h2; omega
  rw [List.getElem_take _, List.getElem_take _, ← List.getD_eq_getElem a 0 hia,
    ← List.getD_eq_getElem b 0 hib]
  exact h i (by simp at h1; omega)

/-- Two equally-long lists that are globally permuted and agree outside the
interval `[s, e]` have permuted slices over `[s, e]`. -/
theorem seg_perm_of_outside_eq (a b : List ℕ) (s e : ℕ) (hlen : a.length = b.length)
    (hperm : a.Perm b) (hout : ∀ p, p < s ∨ e < p → a.getD p 0 = b.getD p 0) :
    (seg a s e).Perm (seg b s e) := by
  have hdec : ∀ (l : List ℕ), l = l.take s ++ (seg l s e ++ (l.drop s).drop (e + 1 - s)) := by
    intro l
    unfold seg
    rw [List.take_append_drop, List.take_append_drop]
  have htk : a.take s = b.take s :=
    take_eq_of_getD_eq a b s hlen (fun p hp => hout p (Or.inl hp))
  have hdr : (a.drop s).drop (e + 1 - s) = (b.drop s).drop (e + 1 - s) := by
    apply List.ext_getElem (by simp [hlen])
    intro i h1 h2
    have h1' : s + ((e + 1 - s) + i) < a.length := by simp at h1; omega
    have h2' : s + ((e + 1 - s) + i) < b.length := by simp at h2; omega
    rw [← List.getD_eq_getElem _ 0 h1, ← List.getD_eq_getElem _ 0 h2,
      getD_drop, getD_drop, getD_drop, getD_drop]
    exact hout _ (Or.inr (by omega))
  have hperm2 : (a.take s ++ (seg a s e ++ (a.drop s).drop (e + 1 - s))).Perm
      (a.take s ++ (seg b s e ++ (a.drop s).drop (e + 1 - s))) := by
    nth_rewrite 1 [← hdec a]
    rw [htk, hdr, ← hdec b]
    exact hperm
  have h3 := (List.perm_append_left_iff (a.take s)).mp hperm2
  have h4 : (seg a s e ++ (a.drop s).drop (e + 1 - s)).Perm
      (seg b s e ++ (a.drop s).drop (e + 1 - s)) := h3
  exact (List.perm_append_right_iff _).mp h4

/-! #### The insertion-sort pass sorts its segment -/

theorem getD_take (l : List ℕ) (n p : ℕ) (h : p < n) :
    (l.take n).getD p 0 = l.getD p 0 := by
  rw [List.getD_eq_getElem?_getD, List.getD_eq_getElem?_getD, List.getElem?_take, if_pos h]

/-- Characterisation of the shift-and-place loop for a general left
boundary `pl`: the scanned suffix of the slice `[pl, j-1]` slides right one
slot and `vi` lands in the hole; everything left of `pl` and right of `j`
stays put. -/
theorem insertInner_char_seg (v : List ℚ) (vi pl : ℕ) :
    ∀ (a : List ℕ) (j : ℕ), pl ≤ j → j < a.length →
    insertInner v pl vi a j =
      (a.take pl ++ (((a.take j).drop pl).rdropWhile (insP v vi) ++
        vi :: ((a.take j).drop pl).rtakeWhile (insP v vi))) ++ a.drop (j + 1)
  | a, 0, hplj, h => by
    have hpl0 : pl = 0 := by omega
    subst hpl0
    rcases a with _ | ⟨x, t⟩
    · simp at h
    · simp [insertInner]
  | a, j + 1, hplj, h => by
    have htake : a.take (j + 1) = a.take j ++ [a.getD j 0] := by
      rw [List.getD_eq_getElem a 0 (by omega), ← List.take_concat_get a j (by omega)]
      simp
    rw [insertInner]
    rcases eq_or_lt_of_le hplj with hpleq | hpllt
    · rw [if_neg (fun hc => absurd hc.1 (by omega))]
      have hnil : (a.take (j + 1)).drop pl = [] :=
        List.drop_eq_nil_of_le (by rw [List.length_take]; omega)
      rw [hnil]
      simp only [List.rdropWhile_nil, List.rtakeWhile_nil, List.append_nil]
      rw [List.set_eq_take_append_cons_drop, if_pos h, ← hpleq]
      simp
    · have hplj' : pl ≤ j := by omega
      have hsplit : (a.take (j + 1)).drop pl =
          (a.take j).drop pl ++ [a.getD j 0] := by
        rw [htake, List.drop_append_of_le_length (by rw [List.length_take]; omega)]
      by_cases hcmp : keyAt v vi < keyAt v (a.getD j 0)
      · rw [if_pos ⟨by omega, hcmp⟩]
        have hlen : j < (a.set (j + 1) (a.getD j 0)).length := by simp; omega
        rw [insertInner_char_seg v vi pl (a.set (j + 1) (a.getD j 0)) j hplj' hlen]
        rw [take_set_of_le _ a (j + 1) j (by omega),
          take_set_of_le _ a (j + 1) pl (by omega)]
        have hdrop : (a.set (j + 1) (a.getD j 0)).drop (j + 1) =
            a.getD j 0 :: a.drop (j + 1 + 1) := by
          rw [List.drop_set, if_neg (by omega), Nat.sub_self,
            List.drop_eq_getElem_cons (show j + 1 < a.length by omega), List.set_cons_zero,
            List.getD_eq_getElem a 0 (show j < a.length by omega)]
        rw [hdrop, hsplit]
        rw [List.rdropWhile_concat_pos _ _ _ (by simpa [insP] using hcmp),
          List.rtakeWhile_concat_pos _ _ _ (by simpa [insP] using hcmp)]
        simp
      · rw [if_neg (fun hc => hcmp hc.2)]
        rw [hsplit]
        rw [List.rdropWhile_concat_neg _ _ _ (by simpa [insP] using hcmp),
          List.rtakeWhile_concat_neg _ _ _ (by simpa [insP] using hcmp)]
        rw [List.set_eq_take_append_cons_drop, if_pos h, htake]
        conv_lhs => rw [← List.take_append_drop pl (List.take j a)]
        rw [List.take_take, min_eq_left hplj']
        simp [List.append_assoc]

/-- Key order over stored indices, as a plain `≤` relation on the keys. -/
def keyLe (v : List ℚ) (x y : ℕ) : Prop := keyAt v x ≤ keyAt v y

theorem keyle_getLast (v : List ℚ) :
    ∀ (l : List ℕ), l.Pairwise (keyLe v) → ∀ x ∈ l, ∀ (hne : l ≠ []),
    keyAt v x ≤ keyAt v (l.getLast hne)
  | [], _, x, hx, _ => by simp at hx
  | [y], _, x, hx, _ => by
    simp at hx
    subst hx
    simp [List.getLast]
  | y :: z :: t, hs, x, hx, hne => by
    rw [List.getLast_cons (by simp)]
    rcases List.mem_cons.mp hx with rfl | hx2
    · exact List.rel_of_pairwise_cons hs (List.getLast_mem _)
    · exact keyle_getLast v (z :: t) (List.Pairwise.of_cons hs) x hx2 (by simp)

/-- The state of the insertion pass over `[pl, pr]` after `k` iterations. -/
def insSegState (v : List ℚ) (pl : ℕ) (a : List ℕ) (k : ℕ) : List ℕ :=
  (List.range' (pl + 1) k).foldl (fun b pi => insertInner v pl (b.getD pi 0) b pi) a

theorem insSegState_inv (v : List ℚ) (pl : ℕ) (a : List ℕ) :
    ∀ (k : ℕ), pl + k < a.length →
    (insSegState v pl a k).length = a.length ∧
    (∀ p, p < pl ∨ pl + k < p → (insSegState v pl a k).getD p 0 = a.getD p 0) ∧
    (seg (insSegState v pl a k) pl (pl + k)).Pairwise (keyLe v)
  | 0, hk => by
    refine ⟨rfl, fun p _ => rfl, ?_⟩
    show List.Pairwise (keyLe v) (seg (insSegState v pl a 0) pl pl)
    have h1 : seg (insSegState v pl a 0) pl pl = seg a pl pl := rfl
    rw [h1]
    unfold seg
    rw [show pl + 1 - pl = 1 from by omega]
    rcases hd : a.drop pl with _ | ⟨x, t⟩ <;> simp
  | k + 1, hk => by
    obtain ⟨hlen, hout, hsort⟩ := insSegState_inv v pl a k (by omega)
    set b := insSegState v pl a k with hb
    have hstep : insSegState v pl a (k + 1) =
        insertInner v pl (b.getD (pl + k + 1) 0) b (pl + k + 1) := by
      rw [hb]
      unfold insSegState
      rw [List.range'_concat, List.foldl_concat, show pl + 1 + 1 * k = pl + k + 1 from by omega]
    have hpib : pl + k + 1 < b.length := by omega
    set vi := b.getD (pl + k + 1) 0 with hvi
    set P := insP v vi with hP
    set sL := (b.take (pl + k + 1)).drop pl with hsL
    have hchar : insSegState v pl a (k + 1) =
        (b.take pl ++ (sL.rdropWhile P ++ vi :: sL.rtakeWhile P)) ++
          b.drop (pl + k + 1 + 1) :=
      hstep.trans (insertInner_char_seg v vi pl b (pl + k + 1) (by omega) hpib)
    have hsLlen : sL.length = k + 1 := by
      rw [hsL, List.length_drop, List.length_take]
      omega
    have hsplitP : sL.rdropWhile P ++ sL.rtakeWhile P = sL :=
      rdropWhile_append_rtakeWhile P sL
    have hrtlen : (sL.rdropWhile P).length + (sL.rtakeWhile P).length = k + 1 := by
      have := congrArg List.length hsplitP
      simp only [List.length_append] at this
      omega
    have hXlen : (b.take pl ++ (sL.rdropWhile P ++ vi :: sL.rtakeWhile P)).length =
        pl + k + 2 := by
      simp only [List.length_append, List.length_take, List.length_cons]
      omega
    refine ⟨?_, ?_, ?_⟩
    · rw [hchar]
      simp only [List.length_append, List.length_drop, hXlen]
      omega
    · intro p hp
      rcases hp with hp | hp
      · rw [hchar, List.getD_append _ _ _ _ (by omega),
          List.getD_append _ _ _ _ (by rw [List.length_take]; omega),
          getD_take _ _ _ hp]
        exact hout p (Or.inl hp)
      · rw [hchar, List.getD_append_right _ _ _ _ (by omega), hXlen, getD_drop,
          show pl + k + 1 + 1 + (p - (pl + k + 2)) = p from by omega]
        exact hout p (Or.inr (by omega))
    · have hseg : seg (insSegState v pl a (k + 1)) pl (pl + (k + 1)) =
          sL.rdropWhile P ++ vi :: sL.rtakeWhile P := by
        rw [hchar]
        unfold seg
        have e1 : (b.take pl).length = pl := by rw [List.length_take]; omega
        have e2 : pl + (k + 1) + 1 - pl = k + 2 := by omega
        have e3 : (sL.rdropWhile P ++ vi :: sL.rtakeWhile P).length = k + 2 := by
          simp only [List.length_append, List.length_cons]
          omega
        rw [List.append_assoc, List.drop_left' e1, e2,
          List.take_append_of_le_length (le_of_eq e3.symm),
          List.take_of_length_le (le_of_eq e3)]
      rw [hseg]
      have hsortL : sL.Pairwise (keyLe v) := by
        have : sL = seg b pl (pl + k) := by
          rw [hsL]
          unfold seg
          rw [List.drop_take, show pl + k + 1 - pl = k + 1 from by omega]
        rw [this]
        exact hsort
      have hparts := List.pairwise_append.mp (hsplitP ▸ hsortL)
      refine List.pairwise_append.mpr ⟨hparts.1, ?_, ?_⟩
      · refine List.pairwise_cons.mpr ⟨?_, hparts.2.1⟩
        intro y hy
        exact le_of_lt (by simpa [hP, insP] using List.mem_rtakeWhile_imp hy)
      · intro x hx y hy
        have hne : sL.rdropWhile P ≠ [] := List.ne_nil_of_mem hx
        have hlast : ¬ P ((sL.rdropWhile P).getLast hne) = true :=
          List.rdropWhile_last_not P sL hne
        have hlastle : keyAt v ((sL.rdropWhile P).getLast hne) ≤ keyAt v vi := by
          have hfalse : P ((sL.rdropWhile P).getLast hne) = false := by
            cases hpb : P ((sL.rdropWhile P).getLast hne)
            · rfl
            · exact absurd hpb hlast
          have hdec : decide (keyAt v vi <
              keyAt v ((sL.rdropWhile P).getLast hne)) = false := hfalse
          exact not_lt.mp (of_decide_eq_false hdec)
        have hxvi : keyAt v x ≤ keyAt v vi :=
          le_trans (keyle_getLast v _ hparts.1 x hx hne) hlastle
        rcases List.mem_cons.mp hy with rfl | hy2
        · exact hxvi
        · exact le_trans hxvi
            (le_of_lt (by simpa [hP, insP] using List.mem_rtakeWhile_imp hy2))

/-- The insertion-sort pass sorts the slice `[pl, pr]` by keys, leaves
everything outside untouched, and keeps the length. -/
theorem insSortSeg_run (v : List ℚ) (pl pr : ℕ) (a : List ℕ) (hpr : pr < a.length) :
    (insSortSeg v pl pr a).length = a.length ∧
    (∀ p, p < pl ∨ pr < p → (insSortSeg v pl pr a).getD p 0 = a.getD p 0) ∧
    (seg (insSortSeg v pl pr a) pl pr).Pairwise (keyLe v) := by
  rcases lt_or_le pr pl with hlt | hle
  · have h0 : insSortSeg v pl pr a = a := by
      unfold insSortSeg
      rw [show pr + 1 - (pl + 1) = 0 from by omega]
      rfl
    refine ⟨by rw [h0], fun p _ => by rw [h0], ?_⟩
    rw [h0]
    unfold seg
    rw [show pr + 1 - pl = 0 from by omega]
    simp
  · have heq : insSortSeg v pl pr a = insSegState v pl a (pr - pl) := by
      unfold insSortSeg insSegState
      rw [show pr + 1 - (pl + 1) = pr - pl from by omega]
    obtain ⟨h1, h2, h3⟩ := insSegState_inv v pl a (pr - pl) (by omega)
    rw [show pl + (pr - pl) = pr from by omega] at h2 h3
    exact ⟨by rw [heq]; exact h1, fun p hp => by rw [heq]; exact h2 p hp,
      by rw [heq]; exact h3⟩

/-! #### The partition step separates its segment around the pivot -/

/-- The lower scan stops at or before the first known non-small position,
every position strictly passed holds a key `< vp`, and the stop position
holds a key `≥ vp`. -/
theorem scanUp_run (v : List ℚ) (vp : ℚ) (a : List ℕ) :
    ∀ (f pi pj : ℕ), pi < pj → pj ≤ pi + f + 1 →
    ¬(keyAt v (a.getD pj 0) < vp) →
    pi < scanUp v vp a f pi ∧ scanUp v vp a f pi ≤ pj ∧
    ¬(keyAt v (a.getD (scanUp v vp a f pi) 0) < vp) ∧
    (∀ t, pi < t → t < scanUp v vp a f pi → keyAt v (a.getD t 0) < vp)
  | 0, pi, pj, hij, hcap, hstop => by
    have hpj : pj = pi + 1 := by omega
    subst hpj
    exact ⟨by simp [scanUp], by simp [scanUp], by simpa [scanUp] using hstop,
      fun t ht1 ht2 => by simp [scanUp] at ht2; omega⟩
  | f + 1, pi, pj, hij, hcap, hstop => by
    rw [scanUp]
    by_cases hc : keyAt v (a.getD (pi + 1) 0) < vp
    · rw [if_pos (by simpa using hc)]
      have hne : pi + 1 ≠ pj := fun he => hstop (he ▸ hc)
      obtain ⟨r1, r2, r3, r4⟩ := scanUp_run v vp a f (pi + 1) pj (by omega) (by omega) hstop
      refine ⟨by omega, r2, r3, ?_⟩
      intro t ht1 ht2
      rcases eq_or_lt_of_le (show pi + 1 ≤ t from by omega) with rfl | hgt
      · exact hc
      · exact r4 t hgt ht2
    · rw [if_neg (by simpa using hc)]
      exact ⟨by omega, by omega, hc, fun t ht1 ht2 => by omega⟩

/-- The upper scan stops at or after the first known non-large position
below it, every position strictly passed holds a key `> vp`, and the stop
position holds a key `≤ vp`. -/
theorem scanDown_run (v : List ℚ) (vp : ℚ) (a : List ℕ) :
    ∀ (f pj s : ℕ), s < pj → pj ≤ s + f + 1 →
    ¬(vp < keyAt v (a.getD s 0)) →
    s ≤ scanDown v vp a f pj ∧ scanDown v vp a f pj < pj ∧
    ¬(vp < keyAt v (a.getD (scanDown v vp a f pj) 0)) ∧
    (∀ t, scanDown v vp a f pj < t → t < pj → vp < keyAt v (a.getD t 0))
  | 0, pj, s, hsj, hcap, hstop => by
    have hpj : pj = s + 1 := by omega
    subst hpj
    exact ⟨by simp [scanDown], by simp [scanDown], by simpa [scanDown] using hstop,
      fun t ht1 ht2 => by simp [scanDown] at ht1; omega⟩
  | f + 1, pj, s, hsj, hcap, hstop => by
    rw [scanDown]
    by_cases hc : vp < keyAt v (a.getD (pj - 1) 0)
    · rw [if_pos (by simpa using hc)]
      have hne : pj - 1 ≠ s := fun he => hstop (he ▸ hc)
      obtain ⟨r1, r2, r3, r4⟩ := scanDown_run v vp a f (pj - 1) s (by omega) (by omega) hstop
      refine ⟨r1, by omega, r3, ?_⟩
      intro t ht1 ht2
      rcases eq_or_lt_of_le (show t ≤ pj - 1 from by omega) with rfl | hgt
      · exact hc
      · exact r4 t ht1 (by omega)
    · rw [if_neg (by simpa using hc)]
      exact ⟨by omega, by omega, hc, fun t ht1 ht2 => by omega⟩

/-- The exchange loop: starting from a state where `[pl, pi]` is known
small, `[pj, pr]` is known large and the pivot is parked at `pr - 1`, it
returns a final `pi` separating the segment, with the pivot still parked
and all moves confined to `[pl, pr]`. -/
theorem partLoop_run (v : List ℚ) (vp : ℚ) (pr pl : ℕ) :
    ∀ (f : ℕ) (a : List ℕ) (pi pj : ℕ),
    pr < a.length → pj - pi ≤ f → pl ≤ pi → pi < pj → pj ≤ pr - 1 → 1 ≤ pl + 1 →
    (∀ t, pl ≤ t → t ≤ pi → keyAt v (a.getD t 0) ≤ vp) →
    (∀ t, pj ≤ t → t ≤ pr → vp ≤ keyAt v (a.getD t 0)) →
    keyAt v (a.getD (pr - 1) 0) = vp →
    (partLoop v vp pr f a pi pj).1.length = a.length ∧
    (∀ p, p < pl ∨ pr < p → (partLoop v vp pr f a pi pj).1.getD p 0 = a.getD p 0) ∧
    pi < (partLoop v vp pr f a pi pj).2 ∧ (partLoop v vp pr f a pi pj).2 ≤ pr - 1 ∧
    (∀ t, pl ≤ t → t < (partLoop v vp pr f a pi pj).2 →
      keyAt v ((partLoop v vp pr f a pi pj).1.getD t 0) ≤ vp) ∧
    (∀ t, (partLoop v vp pr f a pi pj).2 < t → t ≤ pr →
      vp ≤ keyAt v ((partLoop v vp pr f a pi pj).1.getD t 0)) ∧
    vp ≤ keyAt v ((partLoop v vp pr f a pi pj).1.getD (partLoop v vp pr f a pi pj).2 0) ∧
    keyAt v ((partLoop v vp pr f a pi pj).1.getD (pr - 1) 0) = vp
  | 0, a, pi, pj, hlen, hf, hpl, hij, hjr, _, hL, hR, hPiv => by omega
  | f + 1, a, pi, pj, hlen, hf, hpl, hij, hjr, hone, hL, hR, hPiv => by
    rw [partLoop]
    have hup := scanUp_run v vp a (pr - 1 - pi) pi pj hij (by omega)
      (by exact fun hlt => absurd (hR pj le_rfl (by omega)) (not_le.mpr hlt))
    obtain ⟨hu1, hu2, hu3, hu4⟩ := hup
    have hdn := scanDown_run v vp a pj pj pl (by omega) (by omega)
      (by exact fun hlt => absurd (hL pl le_rfl hpl) (not_le.mpr hlt))
    obtain ⟨hd1, hd2, hd3, hd4⟩ := hdn
    set pi2 := scanUp v vp a (pr - 1 - pi) pi with hpi2
    set pj2 := scanDown v vp a pj pj with hpj2
    by_cases hbr : pj2 ≤ pi2
    · rw [if_pos hbr]
      refine ⟨rfl, fun p _ => rfl, hu1, by omega, ?_, ?_, not_lt.mp hu3, hPiv⟩
      · intro t ht1 ht2
        rcases le_or_lt t pi with hle | hgt
        · exact hL t ht1 hle
        · exact le_of_lt (hu4 t hgt ht2)
      · intro t ht1 ht2
        rcases le_or_lt pj t with hge | hlt
        · exact hR t hge ht2
        · exact le_of_lt (hd4 t (by omega) hlt)
    · rw [if_neg hbr]
      push_neg at hbr
      have hsw1 : (lswap a pi2 pj2).getD pi2 0 = a.getD pj2 0 :=
        lswap_getD_fst a pi2 pj2 (by omega) (by omega)
      have hsw2 : (lswap a pi2 pj2).getD pj2 0 = a.getD pi2 0 :=
        lswap_getD_snd a pi2 pj2 (by omega)
      have hswo : ∀ t, t ≠ pi2 → t ≠ pj2 → (lswap a pi2 pj2).getD t 0 = a.getD t 0 :=
        fun t h1 h2 => lswap_getD_other a pi2 pj2 t h1 h2
      have hrec := partLoop_run v vp pr pl f (lswap a pi2 pj2) pi2 pj2
        (by rw [lswap_length]; exact hlen) (by omega) (by omega) hbr (by omega) hone
        ?_ ?_ ?_
      · obtain ⟨c1, c2, c3, c4, c5, c6, c7, c8⟩ := hrec
        refine ⟨by rw [c1, lswap_length], ?_, by omega, c4, c5, c6, c7, c8⟩
        intro p hp
        rw [c2 p hp, hswo p (by omega) (by omega)]
      · intro t ht1 ht2
        rcases eq_or_lt_of_le ht2 with rfl | hlt
        · rw [hsw1]
          exact not_lt.mp hd3
        · rw [hswo t (by omega) (by omega)]
          rcases le_or_lt t pi with hle | hgt
          · exact hL t ht1 hle
          · exact le_of_lt (hu4 t hgt hlt)
      · intro t ht1 ht2
        rcases eq_or_lt_of_le ht1 with rfl | hlt
        · rw [hsw2]
          exact not_lt.mp hu3
        · rw [hswo t (by omega) (by omega)]
          rcases le_or_lt pj t with hge | hlt2
          · exact hR t hge ht2
          · exact le_of_lt (hd4 t hlt hlt2)
      · rw [hswo (pr - 1) (by omega) (by omega)]
        exact hPiv

/-- Full partition correctness: on a segment longer than
`SMALL_QUICKSORT`, `qsPartition` returns a pivot resting position inside
`(pl, pr)` with all keys left of it at most the pivot key and all keys
right of it at least the pivot key, touching nothing outside `[pl, pr]`. -/
theorem qsPartition_run (v : List ℚ) (a : List ℕ) (pl pr : ℕ)
    (hsize : 15 < pr - pl) (hpr : pr < a.length) :
    (qsPartition v a pl pr).1.length = a.length ∧
    (∀ p, p < pl ∨ pr < p → (qsPartition v a pl pr).1.getD p 0 = a.getD p 0) ∧
    pl + 1 ≤ (qsPartition v a pl pr).2 ∧ (qsPartition v a pl pr).2 ≤ pr - 1 ∧
    (∀ t, pl ≤ t → t < (qsPartition v a pl pr).2 →
      keyAt v ((qsPartition v a pl pr).1.getD t 0) ≤
        keyAt v ((qsPartition v a pl pr).1.getD ((qsPartition v a pl pr).2) 0)) ∧
    (∀ t, (qsPartition v a pl pr).2 < t → t ≤ pr →
      keyAt v ((qsPartition v a pl pr).1.getD ((qsPartition v a pl pr).2) 0) ≤
        keyAt v ((qsPartition v a pl pr).1.getD t 0)) := by
  unfold qsPartition
  dsimp only
  set pm := pl + (pr - pl) / 2 with hpm
  have hpmb : pl + 8 ≤ pm ∧ pm + 8 ≤ pr := by omega
  set a1 := if keyLt v (a.getD pm 0) (a.getD pl 0) then lswap a pm pl else a with ha1
  have h1len : a1.length = a.length := by
    rw [ha1]; split
    · rw [lswap_length]
    · rfl
  have h1out : ∀ p, p ≠ pl → p ≠ pm → a1.getD p 0 = a.getD p 0 := by
    intro p hp1 hp2
    rw [ha1]; split
    · exact lswap_getD_other a pm pl p hp2 hp1
    · rfl
  have h1P : keyAt v (a1.getD pl 0) ≤ keyAt v (a1.getD pm 0) := by
    rw [ha1]; split
    · next hc =>
      rw [lswap_getD_snd a pm pl (by omega), lswap_getD_fst a pm pl (by omega) (by omega)]
      exact le_of_lt (by simpa [keyLt] using hc)
    · next hc =>
      exact not_lt.mp (by simpa [keyLt] using hc)
  set a2 := if keyLt v (a1.getD pr 0) (a1.getD pm 0) then lswap a1 pr pm else a1 with ha2
  have h2len : a2.length = a.length := by
    rw [ha2]; split
    · rw [lswap_length, h1len]
    · exact h1len
  have h2out : ∀ p, p ≠ pr → p ≠ pm → a2.getD p 0 = a1.getD p 0 := by
    intro p hp1 hp2
    rw [ha2]; split
    · exact lswap_getD_other a1 pr pm p hp1 hp2
    · rfl
  have h2a : keyAt v (a2.getD pm 0) ≤ keyAt v (a2.getD pr 0) := by
    rw [ha2]; split
    · next hc =>
      rw [lswap_getD_snd a1 pr pm (by omega), lswap_getD_fst a1 pr pm (by omega) (by omega)]
      exact le_of_lt (by simpa [keyLt] using hc)
    · next hc =>
      exact not_lt.mp (by simpa [keyLt] using hc)
  have h2b : keyAt v (a2.getD pl 0) ≤ keyAt v (a2.getD pr 0) := by
    rw [ha2]; split
    · next hc =>
      rw [lswap_getD_fst a1 pr pm (by omega) (by omega),
        lswap_getD_other a1 pr pm pl (by omega) (by omega)]
      exact h1P
    · next hc =>
      exact le_trans h1P (not_lt.mp (by simpa [keyLt] using hc))
  set a3 := if keyLt v (a2.getD pm 0) (a2.getD pl 0) then lswap a2 pm pl else a2 with ha3
  have h3len : a3.length = a.length := by
    rw [ha3]; split
    · rw [lswap_length, h2len]
    · exact h2len
  have h3out : ∀ p, p ≠ pl → p ≠ pm → a3.getD p 0 = a2.getD p 0 := by
    intro p hp1 hp2
    rw [ha3]; split
    · exact lswap_getD_other a2 pm pl p hp2 hp1
    · rfl
  have h3a : keyAt v (a3.getD pl 0) ≤ keyAt v (a3.getD pm 0) := by
    rw [ha3]; split
    · next hc =>
      rw [lswap_getD_snd a2 pm pl (by omega), lswap_getD_fst a2 pm pl (by omega) (by omega)]
      exact le_of_lt (by simpa [keyLt] using hc)
    · next hc =>
      exact not_lt.mp (by simpa [keyLt] using hc)
  have h3b : keyAt v (a3.getD pm 0) ≤ keyAt v (a3.getD pr 0) := by
    rw [ha3]; split
    · next hc =>
      rw [lswap_getD_fst a2 pm pl (by omega) (by omega),
        lswap_getD_other a2 pm pl pr (by omega) (by omega)]
      exact h2b
    · next hc =>
      exact h2a
  set vp := keyAt v (a3.getD pm 0) with hvp
  set a4 := lswap a3 pm (pr - 1) with ha4
  have h4len : a4.length = a.length := by rw [ha4, lswap_length, h3len]
  have h4out : ∀ p, p ≠ pm → p ≠ pr - 1 → a4.getD p 0 = a3.getD p 0 :=
    fun p hp1 hp2 => by rw [ha4]; exact lswap_getD_other a3 pm (pr - 1) p hp1 hp2
  have h4piv : keyAt v (a4.getD (pr - 1) 0) = vp := by
    rw [ha4, lswap_getD_snd a3 pm (pr - 1) (by omega)]
  have h4L : keyAt v (a4.getD pl 0) ≤ vp := by
    rw [h4out pl (by omega) (by omega)]
    exact h3a
  have h4R : vp ≤ keyAt v (a4.getD pr 0) := by
    rw [h4out pr (by omega) (by omega)]
    exact h3b
  have hrun := partLoop_run v vp pr pl (pr + 1) a4 pl (pr - 1)
    (by omega) (by omega) le_rfl (by omega) le_rfl (by omega)
    (fun t ht1 ht2 => by rw [show t = pl from by omega]; exact h4L)
    (fun t ht1 ht2 => by
      rcases eq_or_lt_of_le ht1 with rfl | hgt
      · exact le_of_eq h4piv.symm
      · rw [show t = pr from by omega]
        exact h4R)
    h4piv
  set r := partLoop v vp pr (pr + 1) a4 pl (pr - 1) with hrdef
  obtain ⟨c1, c2, c3, c4, c5, c6, c7, c8⟩ := hrun
  have hrlen : r.1.length = a.length := by rw [c1, h4len]
  have hpivval : keyAt v ((lswap r.1 r.2 (pr - 1)).getD r.2 0) = vp := by
    rw [lswap_getD_fst r.1 r.2 (pr - 1) (by omega) (by omega)]
    exact c8
  refine ⟨by rw [lswap_length, hrlen], ?_, by omega, c4, ?_, ?_⟩
  · intro p hp
    rw [lswap_getD_other r.1 r.2 (pr - 1) p (by omega) (by omega), c2 p hp,
      h4out p (by omega) (by omega), h3out p (by omega) (by omega),
      h2out p (by omega) (by omega), h1out p (by omega) (by omega)]
  · intro t ht1 ht2
    rw [hpivval, lswap_getD_other r.1 r.2 (pr - 1) t (by omega) (by omega)]
    exact c5 t ht1 ht2
  · intro t ht1 ht2
    rw [hpivval]
    rcases eq_or_ne t (pr - 1) with rfl | htne
    · rw [lswap_getD_snd r.1 r.2 (pr - 1) (by omega)]
      exact c7
    · rw [lswap_getD_other r.1 r.2 (pr - 1) t (by omega) htne]
      exact c6 t ht1 ht2

/-! #### The heapsort fallback sorts its segment -/

theorem hSet_length (a : List ℕ) (pl i x : ℕ) : (hSet a pl i x).length = a.length := by
  simp [hSet]

theorem hGet_hSet_self (a : List ℕ) (pl i x : ℕ) (hb : pl + i - 1 < a.length) :
    hGet (hSet a pl i x) pl i = x :=
  getD_set_self a (pl + i - 1) x hb

theorem hGet_hSet_ne (a : List ℕ) (pl i t x : ℕ) (hi : 1 ≤ i) (ht : 1 ≤ t) (hne : t ≠ i) :
    hGet (hSet a pl i x) pl t = hGet a pl t :=
  getD_set_ne a (pl + i - 1) (pl + t - 1) x (by omega)

/-- Placing `tmp` straight into a hole whose (virtual) children are
already at most `tmp` and whose strict descendants dominate their parents
yields parent dominance everywhere at or below the hole. -/
theorem siftStop (v : List ℚ) (pl nn : ℕ) (tmp : ℕ) (a : List ℕ) (i : ℕ)
    (hi1 : 1 ≤ i) (hin : i ≤ nn) (hlen : pl + nn ≤ a.length)
    (hdom : ∀ j, 2 ≤ j → j ≤ nn → i + 1 ≤ j / 2 →
      keyAt v (hGet a pl j) ≤ keyAt v (hGet a pl (j / 2)))
    (hstop : ∀ j, 2 ≤ j → j ≤ nn → j / 2 = i →
      keyAt v (hGet a pl j) ≤ keyAt v tmp) :
    (hSet a pl i tmp).length = a.length ∧
    (∀ p, p ≠ pl + i - 1 → (hSet a pl i tmp).getD p 0 = a.getD p 0) ∧
    (∀ j, 2 ≤ j → j ≤ nn → i ≤ j / 2 →
      keyAt v (hGet (hSet a pl i tmp) pl j) ≤
        keyAt v (hGet (hSet a pl i tmp) pl (j / 2))) ∧
    hGet (hSet a pl i tmp) pl i = tmp := by
  have hself : hGet (hSet a pl i tmp) pl i = tmp :=
    hGet_hSet_self a pl i tmp (by omega)
  refine ⟨hSet_length a pl i tmp, ?_, ?_, hself⟩
  · intro p hp
    exact getD_set_ne a (pl + i - 1) p tmp (fun he => hp he.symm)
  · intro j hj2 hjn hij
    rcases eq_or_lt_of_le hij with heq | hgt
    · rw [← heq, hself, hGet_hSet_ne a pl i j tmp hi1 (by omega) (by omega)]
      exact hstop j hj2 hjn heq.symm
    · rw [hGet_hSet_ne a pl i j tmp hi1 (by omega) (by omega),
        hGet_hSet_ne a pl i (j / 2) tmp hi1 (by omega) (by omega)]
      exact hdom j hj2 hjn hgt

/-- A finished sift: the loop followed by placing `tmp` into the final
hole (the common shape of both heapsort phases). -/
def siftDone (v : List ℚ) (pl : ℕ) (tk : ℚ) (nn f : ℕ) (tmp : ℕ) (a : List ℕ)
    (i j : ℕ) : List ℕ :=
  hSet (siftLoop v pl tk nn f a i j).1 pl (siftLoop v pl tk nn f a i j).2 tmp

theorem siftPlace_eq_siftDone (v : List ℚ) (pl nn tmp i j : ℕ) (a : List ℕ) :
    siftPlace v pl nn tmp i j a = siftDone v pl (keyAt v tmp) nn (nn + 2) tmp a i j := rfl

/-- The sift-down specification: starting from hole `i` whose strict
descendants dominate their parents, the finished sift restores parent
dominance at and below `i`, writes only at the hole and inside
`[2i, nn]`, and leaves at the hole a value bounded by `tmp` and the
original children of `i`. -/
theorem siftDone_run (v : List ℚ) (pl nn : ℕ) (tmp : ℕ) :
    ∀ (f : ℕ) (a : List ℕ) (i : ℕ), 1 ≤ i → i ≤ nn → pl + nn ≤ a.length →
    nn + 2 ≤ f + 2 * i →
    (∀ j, 2 ≤ j → j ≤ nn → i + 1 ≤ j / 2 →
      keyAt v (hGet a pl j) ≤ keyAt v (hGet a pl (j / 2))) →
    (siftDone v pl (keyAt v tmp) nn f tmp a i (2 * i)).length = a.length ∧
    (∀ p, p ≠ pl + i - 1 → (p < pl + 2 * i - 1 ∨ pl + nn - 1 < p) →
      (siftDone v pl (keyAt v tmp) nn f tmp a i (2 * i)).getD p 0 = a.getD p 0) ∧
    (∀ j, 2 ≤ j → j ≤ nn → i ≤ j / 2 →
      keyAt v (hGet (siftDone v pl (keyAt v tmp) nn f tmp a i (2 * i)) pl j) ≤
        keyAt v (hGet (siftDone v pl (keyAt v tmp) nn f tmp a i (2 * i)) pl (j / 2))) ∧
    (nn < 2 * i → hGet (siftDone v pl (keyAt v tmp) nn f tmp a i (2 * i)) pl i = tmp) ∧
    (2 * i ≤ nn →
      keyAt v (hGet (siftDone v pl (keyAt v tmp) nn f tmp a i (2 * i)) pl i) ≤
        max (keyAt v tmp) (max (keyAt v (hGet a pl (2 * i)))
          (keyAt v (hGet a pl (min (2 * i + 1) nn)))))
  | 0, a, i, hi1, hin, hlen, hfuel, hdom => by
    obtain ⟨s1, s2, s3, s4⟩ := siftStop v pl nn tmp a i hi1 hin hlen hdom
      (fun j hj2 hjn hji => absurd hji (by omega))
    exact ⟨s1, fun p hp _ => s2 p hp, s3, fun _ => s4, fun h => absurd h (by omega)⟩
  | f + 1, a, i, hi1, hin, hlen, hfuel, hdom => by
    simp only [siftDone, siftLoop]
    by_cases hcase : 2 * i ≤ nn
    · rw [if_pos hcase]
      set j2 := if 2 * i < nn ∧ keyLt v (hGet a pl (2 * i)) (hGet a pl (2 * i + 1))
        then 2 * i + 1 else 2 * i with hj2def
      have hj2cases : j2 = 2 * i ∨ (j2 = 2 * i + 1 ∧ 2 * i < nn) := by
        rw [hj2def]
        split
        · next hc => exact Or.inr ⟨rfl, hc.1⟩
        · exact Or.inl rfl
      have hj2nn : j2 ≤ nn := by rcases hj2cases with h | ⟨h, h2⟩ <;> omega
      have hj2ge : 2 * i ≤ j2 := by rcases hj2cases with h | ⟨h, h2⟩ <;> omega
      have hj2par : j2 / 2 = i := by rcases hj2cases with h | ⟨h, h2⟩ <;> omega
      have hmax1 : keyAt v (hGet a pl (2 * i)) ≤ keyAt v (hGet a pl j2) := by
        rw [hj2def]
        split
        · next hc => exact le_of_lt (by simpa [keyLt] using hc.2)
        · exact le_rfl
      have hmax2 : 2 * i + 1 ≤ nn →
          keyAt v (hGet a pl (2 * i + 1)) ≤ keyAt v (hGet a pl j2) := by
        intro hn
        rw [hj2def]
        split
        · exact le_rfl
        · next hc =>
          refine not_lt.mp (fun hlt => hc ⟨by omega, by simpa [keyLt] using hlt⟩)
      split
      · next hcmp =>
        have hct : keyAt v tmp < keyAt v (hGet a pl j2) := of_decide_eq_true hcmp
        set a2 := hSet a pl i (hGet a pl j2) with ha2
        have ha2len : a2.length = a.length := hSet_length a pl i _
        have ha2i : hGet a2 pl i = hGet a pl j2 :=
          hGet_hSet_self a pl i _ (by omega)
        have ha2get : ∀ t, 1 ≤ t → t ≠ i → hGet a2 pl t = hGet a pl t :=
          fun t ht htne => hGet_hSet_ne a pl i t _ hi1 ht htne
        have hdom2 : ∀ j, 2 ≤ j → j ≤ nn → j2 + 1 ≤ j / 2 →
            keyAt v (hGet a2 pl j) ≤ keyAt v (hGet a2 pl (j / 2)) := by
          intro j hja hjb hjc
          rw [ha2get j (by omega) (by omega), ha2get (j / 2) (by omega) (by omega)]
          exact hdom j hja hjb (by omega)
        have hIH := siftDone_run v pl nn tmp f a2 j2 (by omega) hj2nn
          (by rw [ha2len]; exact hlen) (by omega) hdom2
        obtain ⟨I1, I2, I3, I4, I5⟩ := hIH
        simp only [siftDone] at I1 I2 I3 I4 I5
        have hEi : hGet (hSet (siftLoop v pl (keyAt v tmp) nn f a2 j2 (2 * j2)).1 pl
            (siftLoop v pl (keyAt v tmp) nn f a2 j2 (2 * j2)).2 tmp) pl i =
            hGet a pl j2 := by
          show (hSet (siftLoop v pl (keyAt v tmp) nn f a2 j2 (2 * j2)).1 pl
            (siftLoop v pl (keyAt v tmp) nn f a2 j2 (2 * j2)).2 tmp).getD (pl + i - 1) 0 =
            hGet a pl j2
          rw [I2 (pl + i - 1) (by omega) (Or.inl (by omega))]
          exact ha2i
        refine ⟨I1.trans ha2len, ?_, ?_, fun h => absurd h (by omega), ?_⟩
        · intro p hp hreg
          have hp2 : p ≠ pl + j2 - 1 := by rcases hreg with h | h <;> omega
          have hreg2 : p < pl + 2 * j2 - 1 ∨ pl + nn - 1 < p := by
            rcases hreg with h | h
            · exact Or.inl (by omega)
            · exact Or.inr h
          rw [I2 p hp2 hreg2]
          exact getD_set_ne a (pl + i - 1) p _ (by omega)
        · intro j hja hjb hij
          rcases le_or_lt j2 (j / 2) with hge | hlt
          · exact I3 j hja hjb hge
          · rcases eq_or_lt_of_le hij with heqpar | hgtpar
            · rcases eq_or_ne j j2 with rfl | hjne
              · rw [← heqpar, hEi]
                by_cases h2j2 : 2 * j2 ≤ nn
                · refine le_trans (I5 h2j2) (max_le (le_of_lt hct) (max_le ?_ ?_))
                  · rw [ha2get (2 * j2) (by omega) (by omega)]
                    have hd := hdom (2 * j2) (by omega) h2j2 (by omega)
                    rw [show 2 * j2 / 2 = j2 from by omega] at hd
                    exact hd
                  · rcases le_or_lt (2 * j2 + 1) nn with hnle | hngt
                    · rw [min_eq_left hnle, ha2get (2 * j2 + 1) (by omega) (by omega)]
                      have hd := hdom (2 * j2 + 1) (by omega) hnle (by omega)
                      rw [show (2 * j2 + 1) / 2 = j2 from by omega] at hd
                      exact hd
                    · have hmeq : min (2 * j2 + 1) nn = 2 * j2 := by
                        rw [min_eq_right (by omega)]
                        omega
                      rw [hmeq, ha2get (2 * j2) (by omega) (by omega)]
                      have hd := hdom (2 * j2) (by omega) (by omega) (by omega)
                      rw [show 2 * j2 / 2 = j2 from by omega] at hd
                      exact hd
                · rw [I4 (by omega)]
                  exact le_of_lt hct
              · have hEj : hGet (hSet (siftLoop v pl (keyAt v tmp) nn f a2 j2 (2 * j2)).1 pl
                    (siftLoop v pl (keyAt v tmp) nn f a2 j2 (2 * j2)).2 tmp) pl j =
                    hGet a pl j := by
                  show (hSet (siftLoop v pl (keyAt v tmp) nn f a2 j2 (2 * j2)).1 pl
                    (siftLoop v pl (keyAt v tmp) nn f a2 j2 (2 * j2)).2 tmp).getD
                      (pl + j - 1) 0 = hGet a pl j
                  rw [I2 (pl + j - 1) (by omega) (Or.inl (by omega))]
                  exact ha2get j (by omega) (by omega)
                rw [← heqpar, hEi, hEj]
                have hjrange : j = 2 * i ∨ j = 2 * i + 1 := by omega
                rcases hjrange with rfl | rfl
                · exact hmax1
                · exact hmax2 hjb
            · have hjnej2 : j ≠ j2 := by omega
              have hEj : hGet (hSet (siftLoop v pl (keyAt v tmp) nn f a2 j2 (2 * j2)).1 pl
                  (siftLoop v pl (keyAt v tmp) nn f a2 j2 (2 * j2)).2 tmp) pl j =
                  hGet a pl j := by
                show (hSet (siftLoop v pl (keyAt v tmp) nn f a2 j2 (2 * j2)).1 pl
                  (siftLoop v pl (keyAt v tmp) nn f a2 j2 (2 * j2)).2 tmp).getD
                    (pl + j - 1) 0 = hGet a pl j
                rw [I2 (pl + j - 1) (by omega) (Or.inl (by omega))]
                exact ha2get j (by omega) (by omega)
              have hEp : hGet (hSet (siftLoop v pl (keyAt v tmp) nn f a2 j2 (2 * j2)).1 pl
                  (siftLoop v pl (keyAt v tmp) nn f a2 j2 (2 * j2)).2 tmp) pl (j / 2) =
                  hGet a pl (j / 2) := by
                show (hSet (siftLoop v pl (keyAt v tmp) nn f a2 j2 (2 * j2)).1 pl
                  (siftLoop v pl (keyAt v tmp) nn f a2 j2 (2 * j2)).2 tmp).getD
                    (pl + j / 2 - 1) 0 = hGet a pl (j / 2)
                rw [I2 (pl + j / 2 - 1) (by omega) (Or.inl (by omega))]
                exact ha2get (j / 2) (by omega) (by omega)
              rw [hEj, hEp]
              exact hdom j hja hjb (by omega)
        · intro _
          rw [hEi]
          refine le_trans ?_ (le_max_right _ _)
          rcases hj2cases with hcs | ⟨hcs, hlt2⟩
          · rw [hcs]
            exact le_max_left _ _
          · rw [hcs, min_eq_left (by omega)]
            exact le_max_right _ _
      · next hcmp =>
        have hct : ¬ keyAt v tmp < keyAt v (hGet a pl j2) := by simpa using hcmp
        have hstop : ∀ j, 2 ≤ j → j ≤ nn → j / 2 = i →
            keyAt v (hGet a pl j) ≤ keyAt v tmp := by
          intro j hja hjb hji
          have hjrange : j = 2 * i ∨ j = 2 * i + 1 := by omega
          rcases hjrange with rfl | rfl
          · exact le_trans hmax1 (not_lt.mp hct)
          · exact le_trans (hmax2 hjb) (not_lt.mp hct)
        obtain ⟨s1, s2, s3, s4⟩ := siftStop v pl nn tmp a i hi1 hin hlen hdom hstop
        exact ⟨s1, fun p hp _ => s2 p hp, s3, fun _ => s4,
          fun _ => by rw [s4]; exact le_max_left _ _⟩
    · rw [if_neg hcase]
      obtain ⟨s1, s2, s3, s4⟩ := siftStop v pl nn tmp a i hi1 hin hlen hdom
        (fun j hj2 hjn hji => absurd hji (by omega))
      exact ⟨s1, fun p hp _ => s2 p hp, s3, fun _ => s4, fun h => absurd h hcase⟩

/-- The heapify phase: once the countdown reaches `c`, every node with a
parent above `c` is dominated; at `c = 0` the whole segment is a heap. -/
theorem heapBuild_run (v : List ℚ) (pl nn : ℕ) :
    ∀ (c : ℕ) (a : List ℕ), 2 * c ≤ nn → pl + nn ≤ a.length →
    (∀ j, 2 ≤ j → j ≤ nn → c + 1 ≤ j / 2 →
      keyAt v (hGet a pl j) ≤ keyAt v (hGet a pl (j / 2))) →
    (heapBuild v pl nn c a).length = a.length ∧
    (∀ p, p < pl ∨ pl + nn - 1 < p → (heapBuild v pl nn c a).getD p 0 = a.getD p 0) ∧
    (∀ j, 2 ≤ j → j ≤ nn → keyAt v (hGet (heapBuild v pl nn c a) pl j) ≤
      keyAt v (hGet (heapBuild v pl nn c a) pl (j / 2)))
  | 0, a, hc, hlen, hdom =>
    ⟨rfl, fun p _ => rfl, fun j hj2 hjn => hdom j hj2 hjn (by omega)⟩
  | c + 1, a, hc, hlen, hdom => by
    rw [heapBuild, siftPlace_eq_siftDone]
    have hsp := siftDone_run v pl nn (hGet a pl (c + 1)) (nn + 2) a (c + 1)
      (by omega) (by omega) hlen (by omega) hdom
    obtain ⟨B1, B2, B3, _, _⟩ := hsp
    have hrec := heapBuild_run v pl nn c
      (siftDone v pl (keyAt v (hGet a pl (c + 1))) nn (nn + 2) (hGet a pl (c + 1)) a
        (c + 1) (2 * (c + 1)))
      (by omega) (by rw [B1]; exact hlen) B3
    refine ⟨hrec.1.trans B1, ?_, hrec.2.2⟩
    intro p hp
    rw [hrec.2.1 p hp]
    rcases hp with hp | hp
    · exact B2 p (by omega) (Or.inl (by omega))
    · exact B2 p (by omega) (Or.inr hp)

/-- In a heap the root holds a maximal key. -/
theorem heapRootMax (v : List ℚ) (pl m : ℕ) (a : List ℕ)
    (hheap : ∀ j, 2 ≤ j → j ≤ m →
      keyAt v (hGet a pl j) ≤ keyAt v (hGet a pl (j / 2))) :
    ∀ t, 1 ≤ t → t ≤ m → keyAt v (hGet a pl t) ≤ keyAt v (hGet a pl 1) := by
  intro t
  induction t using Nat.strong_induction_on with
  | _ t ih =>
    intro ht1 htm
    rcases eq_or_lt_of_le ht1 with heq | hgt
    · rw [← heq]
    · exact le_trans (hheap t (by omega) htm)
        (ih (t / 2) (by omega) (by omega) (by omega))

/-- The extraction phase: from a heap over `[1, m]` whose keys are below
the already-sorted tail `(m, nn]`, repeated root extraction sorts the
whole 1-based range `[1, nn]`. -/
theorem heapExtract_run (v : List ℚ) (pl nn : ℕ) :
    ∀ (m : ℕ) (a : List ℕ), m ≤ nn → pl + nn ≤ a.length →
    (∀ j, 2 ≤ j → j ≤ m →
      keyAt v (hGet a pl j) ≤ keyAt v (hGet a pl (j / 2))) →
    (∀ t u, 1 ≤ t → t ≤ m → m < u → u ≤ nn →
      keyAt v (hGet a pl t) ≤ keyAt v (hGet a pl u)) →
    (∀ t u, m < t → t ≤ u → u ≤ nn →
      keyAt v (hGet a pl t) ≤ keyAt v (hGet a pl u)) →
    (heapExtract v pl m a).length = a.length ∧
    (∀ p, p < pl ∨ pl + nn - 1 < p → (heapExtract v pl m a).getD p 0 = a.getD p 0) ∧
    (∀ t u, 1 ≤ t → t ≤ u → u ≤ nn →
      keyAt v (hGet (heapExtract v pl m a) pl t) ≤
        keyAt v (hGet (heapExtract v pl m a) pl u))
  | 0, a, hm, hlen, hE1, hE2, hE3 => by
    refine ⟨rfl, fun p _ => rfl, ?_⟩
    intro t u ht1 htu hun
    rcases eq_or_lt_of_le htu with heq | hlt
    · rw [heq]
    · exact hE3 t u (by omega) (by omega) hun
  | 1, a, hm, hlen, hE1, hE2, hE3 => by
    refine ⟨rfl, fun p _ => rfl, ?_⟩
    intro t u ht1 htu hun
    rcases eq_or_lt_of_le htu with heq | hlt
    · rw [heq]
    · rcases eq_or_lt_of_le ht1 with heq1 | hgt1
      · rw [← heq1]
        exact hE2 1 u le_rfl le_rfl (by omega) hun
      · exact hE3 t u (by omega) (by omega) hun
  | n + 2, a, hm, hlen, hE1, hE2, hE3 => by
    rw [heapExtract]
    have hrm := heapRootMax v pl (n + 2) a hE1
    set tmp := hGet a pl (n + 2) with htmp
    set a1 := hSet a pl (n + 2) (hGet a pl 1) with ha1
    have ha1len : a1.length = a.length := hSet_length a pl (n + 2) _
    have ha1get : ∀ t, 1 ≤ t → t ≠ n + 2 → hGet a1 pl t = hGet a pl t :=
      fun t ht htne => hGet_hSet_ne a pl (n + 2) t _ (by omega) ht htne
    have ha1m : hGet a1 pl (n + 2) = hGet a pl 1 :=
      hGet_hSet_self a pl (n + 2) _ (by omega)
    have hdom1 : ∀ j, 2 ≤ j → j ≤ n + 1 → 1 + 1 ≤ j / 2 →
        keyAt v (hGet a1 pl j) ≤ keyAt v (hGet a1 pl (j / 2)) := by
      intro j hja hjb hjc
      rw [ha1get j (by omega) (by omega), ha1get (j / 2) (by omega) (by omega)]
      exact hE1 j hja (by omega)
    have hsp := siftDone_run v pl (n + 1) tmp (n + 3) a1 1 le_rfl (by omega)
      (by rw [ha1len]; omega) (by omega) hdom1
    simp only [Nat.mul_one] at hsp
    rw [show (n + 1) + 2 = n + 3 from rfl] at hsp
    obtain ⟨S1, S2, S3, _, _⟩ := hsp
    rw [← siftPlace_eq_siftDone] at S1 S2 S3
    set a2 := siftPlace v pl (n + 1) tmp 1 2 a1 with ha2
    have hperm2 : a2.Perm (hSet a1 pl 1 tmp) :=
      siftPlace_perm v pl (n + 1) tmp 1 2 a1 le_rfl (by omega) (by omega)
        (by rw [ha1len]; omega)
    have ha2len : a2.length = a1.length :=
      hperm2.length_eq.trans (hSet_length a1 pl 1 tmp)
    have ha2top : hGet a2 pl (n + 2) = hGet a pl 1 := by
      show a2.getD (pl + (n + 2) - 1) 0 = hGet a pl 1
      rw [S2 (pl + (n + 2) - 1) (by omega) (Or.inr (by omega))]
      exact ha1m
    have ha2high : ∀ u, n + 2 < u → hGet a2 pl u = hGet a pl u := by
      intro u hu
      show a2.getD (pl + u - 1) 0 = hGet a pl u
      rw [S2 (pl + u - 1) (by omega) (Or.inr (by omega))]
      exact ha1get u (by omega) (by omega)
    have hsegperm : (seg a2 pl (pl + n)).Perm (seg (hSet a1 pl 1 tmp) pl (pl + n)) := by
      refine seg_perm_of_outside_eq a2 (hSet a1 pl 1 tmp) pl (pl + n)
        (ha2len.trans (hSet_length a1 pl 1 tmp).symm) hperm2 ?_
      intro p hp
      rcases hp with hp | hp
      · rw [S2 p (by omega) (Or.inl (by omega))]
        exact (getD_set_ne a1 (pl + 1 - 1) p tmp (by omega)).symm
      · rw [S2 p (by omega) (Or.inr (by omega))]
        exact (getD_set_ne a1 (pl + 1 - 1) p tmp (by omega)).symm
    have hval : ∀ t, 1 ≤ t → t ≤ n + 1 →
        ∃ t0, 1 ≤ t0 ∧ t0 ≤ n + 2 ∧ hGet a2 pl t = hGet a pl t0 := by
      intro t ht1 htn
      have hmem : a2.getD (pl + t - 1) 0 ∈ seg a2 pl (pl + n) :=
        getD_mem_seg a2 pl (pl + n) (pl + t - 1) (by omega) (by omega) (by omega)
      have hmem2 : a2.getD (pl + t - 1) 0 ∈ seg (hSet a1 pl 1 tmp) pl (pl + n) :=
        hsegperm.mem_iff.mp hmem
      obtain ⟨q, hq1, hq2, hq3, hq4⟩ := mem_seg_elim hmem2
      rcases eq_or_lt_of_le hq1 with heq | hgt
      · refine ⟨n + 2, by omega, le_rfl, ?_⟩
        show a2.getD (pl + t - 1) 0 = tmp
        rw [← hq4, ← heq]
        exact getD_set_self a1 (pl + 1 - 1) tmp (by omega)
      · refine ⟨q - pl + 1, by omega, by omega, ?_⟩
        show a2.getD (pl + t - 1) 0 = a.getD (pl + (q - pl + 1) - 1) 0
        rw [show pl + (q - pl + 1) - 1 = q from by omega, ← hq4]
        rw [show (hSet a1 pl 1 tmp) = a1.set (pl + 1 - 1) tmp from rfl,
          getD_set_ne a1 (pl + 1 - 1) q tmp (by omega)]
        show a1.getD q 0 = a.getD q 0
        rw [ha1]
        exact getD_set_ne a (pl + (n + 2) - 1) q _ (by omega)
    have hE1' : ∀ j, 2 ≤ j → j ≤ n + 1 →
        keyAt v (hGet a2 pl j) ≤ keyAt v (hGet a2 pl (j / 2)) :=
      fun j hj2 hjn => S3 j hj2 hjn (by omega)
    have hE2' : ∀ t u, 1 ≤ t → t ≤ n + 1 → n + 1 < u → u ≤ nn →
        keyAt v (hGet a2 pl t) ≤ keyAt v (hGet a2 pl u) := by
      intro t u ht1 htn hun1 hun2
      obtain ⟨t0, ht01, ht02, hveq⟩ := hval t ht1 htn
      rw [hveq]
      rcases eq_or_lt_of_le (show n + 2 ≤ u from by omega) with hueq | hugt
      · rw [← hueq, ha2top]
        exact hrm t0 ht01 ht02
      · rw [ha2high u hugt]
        exact hE2 t0 u ht01 ht02 (by omega) hun2
    have hE3' : ∀ t u, n + 1 < t → t ≤ u → u ≤ nn →
        keyAt v (hGet a2 pl t) ≤ keyAt v (hGet a2 pl u) := by
      intro t u ht hu1 hu2
      rcases eq_or_lt_of_le (show n + 2 ≤ t from by omega) with hteq | htgt
      · rw [← hteq, ha2top]
        rcases eq_or_lt_of_le (show n + 2 ≤ u from by omega) with hueq | hugt
        · rw [← hueq, ha2top]
        · rw [ha2high u hugt]
          exact hE2 1 u le_rfl (by omega) (by omega) hu2
      · rw [ha2high t htgt, ha2high u (by omega)]
        exact hE3 t u (by omega) hu1 hu2
    have hrec := heapExtract_run v pl nn (n + 1) a2 (by omega)
      (by rw [ha2len, ha1len]; exact hlen) hE1' hE2' hE3'
    refine ⟨hrec.1.trans (ha2len.trans ha1len), ?_, hrec.2.2⟩
    intro p hp
    rw [hrec.2.1 p hp]
    have hs2 : a2.getD p 0 = a1.getD p 0 := by
      rcases hp with hp | hp
      · exact S2 p (by omega) (Or.inl (by omega))
      · exact S2 p (by omega) (Or.inr (by omega))
    rw [hs2, ha1]
    rcases hp with hp | hp
    · exact getD_set_ne a (pl + (n + 2) - 1) p _ (by omega)
    · exact getD_set_ne a (pl + (n + 2) - 1) p _ (by omega)

/-- The heapsort fallback sorts the slice `[pl, pr]` by keys, leaves
everything outside untouched, and keeps the length. -/
theorem aheapsort_run (v : List ℚ) (a : List ℕ) (pl pr : ℕ)
    (hple : pl ≤ pr) (hpr : pr < a.length) :
    (aheapsort v a pl pr).length = a.length ∧
    (∀ p, p < pl ∨ pr < p → (aheapsort v a pl pr).getD p 0 = a.getD p 0) ∧
    (∀ t u, pl ≤ t → t ≤ u → u ≤ pr →
      keyAt v ((aheapsort v a pl pr).getD t 0) ≤
        keyAt v ((aheapsort v a pl pr).getD u 0)) := by
  unfold aheapsort
  have hb := heapBuild_run v pl (pr - pl + 1) ((pr - pl + 1) / 2) a (by omega) (by omega)
    (fun j hj2 hjn hpar => absurd hpar (by omega))
  obtain ⟨B1, B2, B3⟩ := hb
  have hx := heapExtract_run v pl (pr - pl + 1) (pr - pl + 1)
    (heapBuild v pl (pr - pl + 1) ((pr - pl + 1) / 2) a) le_rfl (by rw [B1]; omega)
    B3 (fun t u ht1 ht2 hu1 hu2 => absurd hu1 (by omega))
    (fun t u ht1 ht2 hu2 => absurd ht1 (by omega))
  obtain ⟨X1, X2, X3⟩ := hx
  refine ⟨X1.trans B1, ?_, ?_⟩
  · intro p hp
    have hp2 : p < pl ∨ pl + (pr - pl + 1) - 1 < p := by
      rcases hp with h | h
      · exact Or.inl h
      · exact Or.inr (by omega)
    rw [X2 p hp2]
    exact B2 p hp2
  · intro t u ht1 htu hun
    have hx3 := X3 (t - pl + 1) (u - pl + 1) (by omega) (by omega) (by omega)
    unfold hGet at hx3
    rw [show pl + (t - pl + 1) - 1 = t from by omega,
      show pl + (u - pl + 1) - 1 = u from by omega] at hx3
    exact hx3

/-! #### The driver loop: pending segments and the global order -/

/-- Positions `p ≤ q` lie inside one common pending segment. -/
def SameSeg (segs : List (ℕ × ℕ)) (p q : ℕ) : Prop :=
  ∃ t ∈ segs, t.1 ≤ p ∧ q ≤ t.2

/-- Any two positions not inside one common pending segment already hold
keys in non-decreasing order. -/
def Crossed (v : List ℚ) (a : List ℕ) (segs : List (ℕ × ℕ)) : Prop :=
  ∀ p q, p < q → q < a.length →
    SameSeg segs p q ∨ keyAt v (a.getD p 0) ≤ keyAt v (a.getD q 0)

/-- The pending segments are pairwise disjoint intervals. -/
def DisjSegs (segs : List (ℕ × ℕ)) : Prop :=
  List.Pairwise (fun s t => s.2 < t.1 ∨ t.2 < s.1) segs

/-- Driver termination measure: twice the total pending size plus the
number of pending segments. -/
def segsM (segs : List (ℕ × ℕ)) : ℕ :=
  (segs.map (fun t => 2 * (t.2 + 1 - t.1) + 1)).sum

theorem segsM_cons (s : ℕ × ℕ) (segs : List (ℕ × ℕ)) :
    segsM (s :: segs) = 2 * (s.2 + 1 - s.1) + 1 + segsM segs := by
  simp [segsM]

theorem crossed_of_segs_perm {v : List ℚ} {a : List ℕ} {s1 s2 : List (ℕ × ℕ)}
    (hp : s1.Perm s2) (h : Crossed v a s1) : Crossed v a s2 := by
  intro p q h1 h2
  rcases h p q h1 h2 with hS | hle
  · obtain ⟨t, ht, hta, htb⟩ := hS
    exact Or.inl ⟨t, hp.mem_iff.mp ht, hta, htb⟩
  · exact Or.inr hle

theorem disj_of_segs_perm {s1 s2 : List (ℕ × ℕ)} (hp : s1.Perm s2)
    (h : DisjSegs s1) : DisjSegs s2 :=
  (hp.pairwise_iff (fun hab => Or.symm hab)).mp h

/-- Slice-level pairwise sortedness, read back positionally. -/
theorem seg_pairwise_sorted (v : List ℚ) (b : List ℕ) (pl pr : ℕ) (hpr : pr < b.length)
    (h : (seg b pl pr).Pairwise (keyLe v)) :
    ∀ t u, pl ≤ t → t ≤ u → u ≤ pr →
      keyAt v (b.getD t 0) ≤ keyAt v (b.getD u 0) := by
  intro t u ht htu hu
  rcases eq_or_lt_of_le htu with heq | hlt
  · rw [heq]
  · have hlen : (seg b pl pr).length = pr + 1 - pl := by
      rw [seg_length]
      omega
    have hp := List.pairwise_iff_get.mp h ⟨t - pl, by omega⟩ ⟨u - pl, by omega⟩
      (Fin.mk_lt_mk.mpr (by omega))
    have e1 : (seg b pl pr).get ⟨t - pl, by omega⟩ = b.getD t 0 := by
      rw [show (seg b pl pr).get ⟨t - pl, by omega⟩ =
          (seg b pl pr).getD (t - pl) 0 from (List.getD_eq_getElem _ _ _).symm,
        seg_getD b pl pr (t - pl) (by omega), show pl + (t - pl) = t from by omega]
    have e2 : (seg b pl pr).get ⟨u - pl, by omega⟩ = b.getD u 0 := by
      rw [show (seg b pl pr).get ⟨u - pl, by omega⟩ =
          (seg b pl pr).getD (u - pl) 0 from (List.getD_eq_getElem _ _ _).symm,
        seg_getD b pl pr (u - pl) (by omega), show pl + (u - pl) = u from by omega]
    rw [← e1, ← e2]
    exact hp

/-- Finishing the current segment in place (leaf pass) preserves the
cross-segment order for the remaining stack. -/
theorem crossed_leaf (v : List ℚ) (a a2 : List ℕ) (pl pr : ℕ) (stack : List (ℕ × ℕ))
    (hlen : a2.length = a.length) (hperm : a2.Perm a)
    (hout : ∀ p, p < pl ∨ pr < p → a2.getD p 0 = a.getD p 0)
    (hsorted : ∀ t u, pl ≤ t → t ≤ u → u ≤ pr →
      keyAt v (a2.getD t 0) ≤ keyAt v (a2.getD u 0))
    (_hpr : pr < a.length)
    (hcross : Crossed v a ((pl, pr) :: stack))
    (hdisj : DisjSegs ((pl, pr) :: stack)) :
    Crossed v a2 stack := by
  have hsegp : (seg a2 pl pr).Perm (seg a pl pr) :=
    seg_perm_of_outside_eq a2 a pl pr hlen hperm hout
  intro p q hpq hq
  have hq' : q < a.length := by rw [← hlen]; exact hq
  by_cases hss : SameSeg stack p q
  · exact Or.inl hss
  · right
    by_cases hpin : pl ≤ p ∧ p ≤ pr
    · by_cases hqin : pl ≤ q ∧ q ≤ pr
      · exact hsorted p q hpin.1 (le_of_lt hpq) hqin.2
      · have hqgt : pr < q := by omega
        have hpmem : a2.getD p 0 ∈ seg a pl pr :=
          hsegp.mem_iff.mp (getD_mem_seg a2 pl pr p hpin.1 hpin.2 (by omega))
        obtain ⟨p2, hp21, hp22, hp23, hp24⟩ := mem_seg_elim hpmem
        have hqv : a2.getD q 0 = a.getD q 0 := hout q (Or.inr hqgt)
        rw [← hp24, hqv]
        rcases hcross p2 q (by omega) hq' with hS | hle
        · obtain ⟨t, ht, hta, htb⟩ := hS
          rcases List.mem_cons.mp ht with rfl | htst
          · exact absurd (show q ≤ pr from htb) (by omega)
          · rcases List.rel_of_pairwise_cons hdisj htst with hd | hd
            · exact absurd hta (by
                have hd' : pr < t.1 := hd
                omega)
            · exact absurd htb (by
                have hd' : t.2 < pl := hd
                omega)
        · exact hle
    · by_cases hqin : pl ≤ q ∧ q ≤ pr
      · have hplt : p < pl := by omega
        have hqmem : a2.getD q 0 ∈ seg a pl pr :=
          hsegp.mem_iff.mp (getD_mem_seg a2 pl pr q hqin.1 hqin.2 (by omega))
        obtain ⟨q2, hq21, hq22, hq23, hq24⟩ := mem_seg_elim hqmem
        have hpv : a2.getD p 0 = a.getD p 0 := hout p (Or.inl hplt)
        rw [← hq24, hpv]
        rcases hcross p q2 (by omega) (by omega) with hS | hle
        · obtain ⟨t, ht, hta, htb⟩ := hS
          rcases List.mem_cons.mp ht with rfl | htst
          · exact absurd (show pl ≤ p from hta) (by omega)
          · rcases List.rel_of_pairwise_cons hdisj htst with hd | hd
            · exact absurd hta (by
                have hd' : pr < t.1 := hd
                omega)
            · exact absurd htb (by
                have hd' : t.2 < pl := hd
                omega)
        · exact hle
      · have hpv : a2.getD p 0 = a.getD p 0 := hout p (by omega)
        have hqv : a2.getD q 0 = a.getD q 0 := hout q (by omega)
        rw [hpv, hqv]
        rcases hcross p q hpq hq' with hS | hle
        · obtain ⟨t, ht, hta, htb⟩ := hS
          rcases List.mem_cons.mp ht with rfl | htst
          · exact absurd (show pl ≤ p ∧ q ≤ pr from ⟨hta, htb⟩) (by omega)
          · exact absurd ⟨t, htst, hta, htb⟩ hss
        · exact hle

/-- Partitioning the current segment around the pivot resting position
preserves the cross-segment order for the two new pending halves. -/
theorem crossed_partition (v : List ℚ) (a a2 : List ℕ) (pl pr pi : ℕ)
    (stack : List (ℕ × ℕ))
    (hlen : a2.length = a.length) (hperm : a2.Perm a)
    (hout : ∀ p, p < pl ∨ pr < p → a2.getD p 0 = a.getD p 0)
    (hpi1 : pl + 1 ≤ pi) (hpi2 : pi ≤ pr - 1) (hpr : pr < a.length)
    (hplr : pl + 1 ≤ pr)
    (hle : ∀ t, pl ≤ t → t < pi →
      keyAt v (a2.getD t 0) ≤ keyAt v (a2.getD pi 0))
    (hge : ∀ t, pi < t → t ≤ pr →
      keyAt v (a2.getD pi 0) ≤ keyAt v (a2.getD t 0))
    (hcross : Crossed v a ((pl, pr) :: stack))
    (hdisj : DisjSegs ((pl, pr) :: stack)) :
    Crossed v a2 ((pl, pi - 1) :: (pi + 1, pr) :: stack) ∧
    DisjSegs ((pl, pi - 1) :: (pi + 1, pr) :: stack) := by
  have hsegp : (seg a2 pl pr).Perm (seg a pl pr) :=
    seg_perm_of_outside_eq a2 a pl pr hlen hperm hout
  constructor
  · intro p q hpq hq
    have hq' : q < a.length := by rw [← hlen]; exact hq
    by_cases hss : SameSeg ((pl, pi - 1) :: (pi + 1, pr) :: stack) p q
    · exact Or.inl hss
    · right
      by_cases hpin : pl ≤ p ∧ p ≤ pr
      · by_cases hqin : pl ≤ q ∧ q ≤ pr
        · have hqge : pi ≤ q := by
            by_contra hh
            exact hss ⟨(pl, pi - 1), List.mem_cons_self _ _, hpin.1, by omega⟩
          have hple2 : p ≤ pi := by
            by_contra hh
            exact hss ⟨(pi + 1, pr), List.mem_cons_of_mem _ (List.mem_cons_self _ _),
              by omega, hqin.2⟩
          rcases eq_or_lt_of_le hple2 with hpe | hplt
          · rw [hpe]
            exact hge q (by omega) hqin.2
          · rcases eq_or_lt_of_le hqge with hqe | hqlt
            · rw [← hqe]
              exact hle p hpin.1 (by omega)
            · exact le_trans (hle p hpin.1 hplt) (hge q hqlt hqin.2)
        · have hqgt : pr < q := by omega
          have hpmem : a2.getD p 0 ∈ seg a pl pr :=
            hsegp.mem_iff.mp (getD_mem_seg a2 pl pr p hpin.1 hpin.2 (by omega))
          obtain ⟨p2, hp21, hp22, hp23, hp24⟩ := mem_seg_elim hpmem
          have hqv : a2.getD q 0 = a.getD q 0 := hout q (Or.inr hqgt)
          rw [← hp24, hqv]
          rcases hcross p2 q (by omega) hq' with hS | hle2
          · obtain ⟨t, ht, hta, htb⟩ := hS
            rcases List.mem_cons.mp ht with rfl | htst
            · exact absurd (show q ≤ pr from htb) (by omega)
            · rcases List.rel_of_pairwise_cons hdisj htst with hd | hd
              · exact absurd hta (by
                  have hd' : pr < t.1 := hd
                  omega)
              · exact absurd htb (by
                  have hd' : t.2 < pl := hd
                  omega)
          · exact hle2
      · by_cases hqin : pl ≤ q ∧ q ≤ pr
        · have hplt : p < pl := by omega
          have hqmem : a2.getD q 0 ∈ seg a pl pr :=
            hsegp.mem_iff.mp (getD_mem_seg a2 pl pr q hqin.1 hqin.2 (by omega))
          obtain ⟨q2, hq21, hq22, hq23, hq24⟩ := mem_seg_elim hqmem
          have hpv : a2.getD p 0 = a.getD p 0 := hout p (Or.inl hplt)
          rw [← hq24, hpv]
          rcases hcross p q2 (by omega) (by omega) with hS | hle2
          · obtain ⟨t, ht, hta, htb⟩ := hS
            rcases List.mem_cons.mp ht with rfl | htst
            · exact absurd (show pl ≤ p from hta) (by omega)
            · rcases List.rel_of_pairwise_cons hdisj htst with hd | hd
              · exact absurd hta (by
                  have hd' : pr < t.1 := hd
                  omega)
              · exact absurd htb (by
                  have hd' : t.2 < pl := hd
                  omega)
          · exact hle2
        · have hpv : a2.getD p 0 = a.getD p 0 := hout p (by omega)
          have hqv : a2.getD q 0 = a.getD q 0 := hout q (by omega)
          rw [hpv, hqv]
          rcases hcross p q hpq hq' with hS | hle2
          · obtain ⟨t, ht, hta, htb⟩ := hS
            rcases List.mem_cons.mp ht with rfl | htst
            · exact absurd (show pl ≤ p ∧ q ≤ pr from ⟨hta, htb⟩) (by omega)
            · exact absurd ⟨t, List.mem_cons_of_mem _ (List.mem_cons_of_mem _ htst),
                hta, htb⟩ hss
          · exact hle2
  · obtain ⟨hrel, htail⟩ := List.pairwise_cons.mp hdisj
    refine List.pairwise_cons.mpr ⟨?_, List.pairwise_cons.mpr ⟨?_, htail⟩⟩
    · intro t ht
      rcases List.mem_cons.mp ht with rfl | htst
      · exact Or.inl (by omega)
      · rcases hrel t htst with hd | hd
        · exact Or.inl (by
            have hd' : pr < t.1 := hd
            omega)
        · exact Or.inr (by
            have hd' : t.2 < pl := hd
            omega)
    · intro t ht
      rcases hrel t ht with hd | hd
      · exact Or.inl (by
          have hd' : pr < t.1 := hd
          omega)
      · exact Or.inr (by
          have hd' : t.2 < pl := hd
          omega)

theorem segsM_pair (x y : ℕ) (segs : List (ℕ × ℕ)) :
    segsM ((x, y) :: segs) = 2 * (y + 1 - x) + 1 + segsM segs := by
  simp [segsM]

/-- The driver loop invariant: with enough fuel, pairwise-disjoint pending
segments and the cross-segment order established, the loop returns a fully
key-sorted index array. -/
theorem qsLoop_sorted (v : List ℚ) :
    ∀ (f : ℕ) (a : List ℕ) (pl pr : ℕ) (stack : List (ℕ × ℕ)) (depth : ℤ),
    segsM ((pl, pr) :: stack) ≤ f →
    pr < a.length →
    (∀ pq ∈ stack, pq.2 < a.length) →
    Crossed v a ((pl, pr) :: stack) →
    DisjSegs ((pl, pr) :: stack) →
    ∀ p q, p < q → q < a.length →
      keyAt v ((qsLoop v f a pl pr stack depth).getD p 0) ≤
        keyAt v ((qsLoop v f a pl pr stack depth).getD q 0)
  | 0, a, pl, pr, stack, depth, hM, _, _, _, _ => by
    exfalso
    rw [segsM_pair] at hM
    omega
  | f + 1, a, pl, pr, stack, depth, hM, hpr, hst, hcross, hdisj => by
    rw [segsM_pair] at hM
    simp only [qsLoop]
    split
    · next hbig =>
      split
      · next hdep =>
        obtain ⟨H1, H2, H3⟩ := aheapsort_run v a pl pr (by omega) hpr
        have hperm := aheapsort_perm v a pl pr (by omega) hpr
        have hcross2 : Crossed v (aheapsort v a pl pr) stack :=
          crossed_leaf v a _ pl pr stack H1 hperm H2 H3 hpr hcross hdisj
        rcases stack with _ | ⟨⟨pl2, pr2⟩, st⟩
        · intro p q hpq hq
          rcases hcross2 p q hpq (by rw [H1]; exact hq) with hS | hle
          · obtain ⟨t, ht, _⟩ := hS
            simp at ht
          · exact hle
        · intro p q hpq hq
          refine qsLoop_sorted v f (aheapsort v a pl pr) pl2 pr2 st (depth - 1)
            ?_ ?_ ?_ hcross2 (List.Pairwise.of_cons hdisj) p q hpq ?_
          · omega
          · rw [H1]
            exact hst (pl2, pr2) (List.mem_cons_self _ _)
          · intro pq hpq2
            rw [H1]
            exact hst pq (List.mem_cons_of_mem _ hpq2)
          · rw [H1]
            exact hq
      · next hdep =>
        obtain ⟨P1, P2, P3, P4, P5, P6⟩ := qsPartition_run v a pl pr (by omega) hpr
        have hpperm : (qsPartition v a pl pr).1.Perm a :=
          (qsPartition_perm_le v a pl pr (by omega) hpr).1
        obtain ⟨hcr2, hdj2⟩ := crossed_partition v a (qsPartition v a pl pr).1 pl pr
          (qsPartition v a pl pr).2 stack P1 hpperm P2 P3 P4 hpr (by omega) P5 P6
          hcross hdisj
        split
        · next hside =>
          intro p q hpq hq
          refine qsLoop_sorted v f (qsPartition v a pl pr).1 pl
            ((qsPartition v a pl pr).2 - 1)
            (((qsPartition v a pl pr).2 + 1, pr) :: stack) (depth - 1)
            ?_ ?_ ?_ hcr2 hdj2 p q hpq ?_
          · rw [segsM_pair, segsM_pair]
            omega
          · rw [P1]
            omega
          · intro pq hpq2
            rcases List.mem_cons.mp hpq2 with rfl | hmem
            · rw [P1]
              exact hpr
            · rw [P1]
              exact hst pq hmem
          · rw [P1]
            exact hq
        · next hside =>
          intro p q hpq hq
          have hcr3 := crossed_of_segs_perm (List.Perm.swap _ _ _) hcr2
          have hdj3 := disj_of_segs_perm (List.Perm.swap _ _ _) hdj2
          refine qsLoop_sorted v f (qsPartition v a pl pr).1
            ((qsPartition v a pl pr).2 + 1) pr
            ((pl, (qsPartition v a pl pr).2 - 1) :: stack) (depth - 1)
            ?_ ?_ ?_ hcr3 hdj3 p q hpq ?_
          · rw [segsM_pair, segsM_pair]
            omega
          · rw [P1]
            exact hpr
          · intro pq hpq2
            rcases List.mem_cons.mp hpq2 with rfl | hmem
            · rw [P1]
              omega
            · rw [P1]
              exact hst pq hmem
          · rw [P1]
            exact hq
    · next hsmall =>
      obtain ⟨I1, I2, I3⟩ := insSortSeg_run v pl pr a hpr
      have hsorted := seg_pairwise_sorted v (insSortSeg v pl pr a) pl pr
        (by rw [I1]; exact hpr) I3
      have hperm := insSortSeg_perm v pl pr a hpr
      have hcross2 : Crossed v (insSortSeg v pl pr a) stack :=
        crossed_leaf v a _ pl pr stack I1 hperm I2 hsorted hpr hcross hdisj
      rcases stack with _ | ⟨⟨pl2, pr2⟩, st⟩
      · intro p q hpq hq
        rcases hcross2 p q hpq (by rw [I1]; exact hq) with hS | hle
        · obtain ⟨t, ht, _⟩ := hS
          simp at ht
        · exact hle
      · intro p q hpq hq
        refine qsLoop_sorted v f (insSortSeg v pl pr a) pl2 pr2 st depth
          ?_ ?_ ?_ hcross2 (List.Pairwise.of_cons hdisj) p q hpq ?_
        · omega
        · rw [I1]
          exact hst (pl2, pr2) (List.mem_cons_self _ _)
        · intro pq hpq2
          rw [I1]
          exact hst pq (List.mem_cons_of_mem _ hpq2)
        · rw [I1]
          exact hq

/-- `np.argsort` produces a key-sorted index order for every input
length — through partitions, insertion passes and the heapsort
fallback alike. -/
theorem argsortNumpy_sorted_keys (v : List ℚ) :
    ∀ p q, p < q → q < (argsortNumpy v).length →
      keyAt v ((argsortNumpy v).getD p 0) ≤ keyAt v ((argsortNumpy v).getD q 0) := by
  intro p q hpq hq
  rcases Nat.eq_zero_or_pos v.length with h0 | hpos
  · rw [argsortNumpy_length, h0] at hq
    omega
  · have hlen : (List.range v.length).length = v.length := List.length_range _
    have hq' : q < (List.range v.length).length := by
      rw [hlen]
      rw [argsortNumpy_length] at hq
      exact hq
    unfold argsortNumpy
    refine qsLoop_sorted v (3 * v.length + 8) (List.range v.length) 0 (v.length - 1) []
      (2 * (npMsb v.length : ℤ)) ?_ ?_ ?_ ?_ ?_ p q hpq hq'
    · rw [segsM_pair]
      simp [segsM]
      omega
    · rw [hlen]
      omega
    · intro pq hpq2
      simp at hpq2
    · intro p2 q2 hp2 hq2
      refine Or.inl ⟨(0, v.length - 1), List.mem_cons_self _ _, by omega, ?_⟩
      rw [hlen] at hq2
      show q2 ≤ v.length - 1
      omega
    · simp [DisjSegs]

/-- The produced index list is pairwise non-decreasing in keys. -/
theorem argsortNumpy_pairwise_keys (v : List ℚ) :
    (argsortNumpy v).Pairwise (fun i j => keyAt v i ≤ keyAt v j) := by
  refine List.pairwise_iff_get.mpr ?_
  intro i j hij
  have h := argsortNumpy_sorted_keys v i.val j.val hij j.isLt
  rw [List.getD_eq_getElem _ _ i.isLt, List.getD_eq_getElem _ _ j.isLt] at h
  exact h
/-! ### The `CWData` data model (`src/crosswalk/data.py`) -/

/-- A Python `dict` of covariates: an insertion-ordered association list
with (in well-formed use) distinct string keys, each mapping to a column. -/
abbrev Covs := List (String × List ℚ)

/-- Python `d.update({k: val})`: replace the value in place if the key
exists (keeping its position), else append the new entry at the end. -/
def dictUpdate (d : Covs) (k : String) (val : List ℚ) : Covs :=
  if d.any (fun q => q.1 == k) then
    d.map (fun q => if q.1 = k then (k, val) else q)
  else d ++ [(k, val)]

/-- `d[k]` for an association-list dictionary. -/
def covLookup (d : Covs) (k : String) : Option (List ℚ) :=
  (d.find? (fun q => q.1 == k)).map Prod.snd

/-- numpy fancy indexing `arr[sort_id]`: a fresh array whose `p`-th entry
is `arr[sort_id[p]]`. -/
def applyPerm {α : Type} [Inhabited α] (σ : List ℕ) (l : List α) : List α :=
  σ.map (fun i => l.getD i default)

/-- A computation-friendly decision procedure for the string order (the
default `String.decidableLT` iterates with well-founded recursion, which
the kernel cannot evaluate). -/
instance (priority := 2000) strLtDec : DecidableRel (fun a b : String => a < b) :=
  fun a b => decidable_of_iff (a.toList < b.toList) String.lt_iff_toList_lt.symm

/-- Computation-friendly decision procedure for `≤` on strings. -/
instance (priority := 2000) strLeDec : DecidableRel (fun a b : String => a ≤ b) :=
  fun a b => decidable_of_iff (a.toList ≤ b.toList) String.le_iff_toList_le.symm

/-- Modelled from the spec: `utils.array_structure` (§4.2 Group Structure
Resolver), whose source file is not in the repository snapshot.  Given a
label array it returns `(num_distinct, counts, unique_sorted)`:
the number of distinct labels, the occurrence count of each distinct label
aligned with the ascending sorted order, and the ascending sorted distinct
labels. -/
def array_structure {α : Type} [LinearOrder α] [DecidableEq α]
    [DecidableRel (fun a b : α => a ≤ b)] (l : List α) :
    ℕ × List ℕ × List α :=
  let u := List.insertionSort (· ≤ ·) l.dedup
  (u.length, u.map (fun x => l.count x), u)

/-- `np.argmax` on a 1-d array: index of the first occurrence of the
maximum; numpy raises `ValueError` on an empty input, modelled as `none`. -/
def npArgmax (l : List ℕ) : Option ℕ :=
  match l with
  | [] => none
  | x :: xs => some (l.indexOf (xs.foldl max x))

/-- `np.argmin`, first occurrence of the minimum, `none` when empty. -/
def npArgmin (l : List ℕ) : Option ℕ :=
  match l with
  | [] => none
  | x :: xs => some (l.indexOf (xs.foldl min x))

/-- Modelled from the spec: `utils.is_numerical_array` (§4.3 Array
Validator).  Arrays are typed `List ℚ` in the embedding, so the numeric
dtype requirement holds by construction and the shape check remains. -/
def is_numerical_array (l : List ℚ) (n : ℕ) : Bool := l.length == n

/-- `CWData.check` (lines 108–131): the conjunction of the constructor's
assertions.  The isinstance assertions hold by the typing of the
embedding, and `len(self.covs) == self.num_covs` is true by construction. -/
def cwCheck (num_obs : ℕ) (obs obs_se : List ℚ) (alt_dorms ref_dorms : List String)
    (covs : Covs) (study_id : Option (List ℚ)) : Bool :=
  is_numerical_array obs num_obs &&
  is_numerical_array obs_se num_obs &&
  obs_se.all (fun x => decide (0 < x)) &&
  (alt_dorms.length == num_obs) &&
  (ref_dorms.length == num_obs) &&
  covs.all (fun q => is_numerical_array q.2 num_obs) &&
  (match study_id with
   | none => true
   | some s => is_numerical_array s num_obs)

/-- Lines 51–57: the empty-covariates override (with its warning) followed
by the in-place `self.covs.update({'intercept': np.ones(self.num_obs)})`.
Returns the updated dictionary and whether the warning fired. -/
def interceptStep (covs : Covs) (num_obs : ℕ) (add_intercept : Bool) : Covs × Bool :=
  let warn := covs.isEmpty && !add_intercept
  let add := add_intercept || warn
  (if add then dictUpdate covs "intercept" (List.replicate num_obs 1) else covs, warn)

/-- The attribute state of a successfully constructed `CWData` object.
`min_alt_dorm` holds the value of its LAST assignment in the source: the
constructor assigns `min_alt_dorm` twice (lines 84–85 and 88–89, the
second time from the reference-only structure) and never assigns any
`min_ref_dorm` attribute, so no such field exists. -/
structure CWData where
  obs : List ℚ
  obs_se : List ℚ
  alt_dorms : List String
  ref_dorms : List String
  covs : Covs
  study_id : Option (List ℚ)
  num_obs : ℕ
  num_covs : ℕ
  num_dorms : ℕ
  dorm_sizes : List ℕ
  unique_dorms : List String
  num_alt_dorms : ℕ
  alt_dorm_sizes : List ℕ
  unique_alt_dorms : List String
  num_ref_dorms : ℕ
  ref_dorm_sizes : List ℕ
  unique_ref_dorms : List String
  max_dorm : String
  min_dorm : String
  max_alt_dorm : String
  min_alt_dorm : String
  max_ref_dorm : String
  dorm_idx : List (String × ℕ)
  num_studies : ℕ
  study_sizes : List ℕ
  unique_study_id : Option (List ℚ)
  deriving Repr, DecidableEq

instance exceptCWDataDecEq : DecidableEq (Except String CWData) := fun a b =>
  match a, b with
  | Except.ok x, Except.ok y =>
    if h : x = y then Decidable.isTrue (by rw [h])
    else Decidable.isFalse (fun hc => h (Except.ok.inj hc))
  | Except.error e, Except.error f =>
    if h : e = f then Decidable.isTrue (by rw [h])
    else Decidable.isFalse (fun hc => h (Except.error.inj hc))
  | Except.ok _, Except.error _ => Decidable.isFalse (fun hc => Except.noConfusion hc)
  | Except.error _, Except.ok _ => Decidable.isFalse (fun hc => Except.noConfusion hc)

/-- `self.unique_*[np.argmax(sizes)]` — raises `ValueError` when `sizes`
is empty. -/
def dormAtMax (u : List String) (sizes : List ℕ) : Except String String :=
  match npArgmax sizes with
  | none => Except.error "attempt to get argmax of an empty sequence"
  | some i => Except.ok (u.getD i "")

/-- `self.unique_*[np.argmin(sizes)]` — raises `ValueError` when `sizes`
is empty. -/
def dormAtMin (u : List String) (sizes : List ℕ) : Except String String :=
  match npArgmin sizes with
  | none => Except.error "attempt to get argmin of an empty sequence"
  | some i => Except.ok (u.getD i "")

/-- `CWData.__init__` after the intercept step: the `check()` call, the
definition-structure and study-structure resolution (lines 61–104) and the
final `sort_by_study_id()` (lines 105, 133–144).  `covs1` is the shared,
already intercept-augmented covariate dictionary.  A failing `assert` or a
numpy `ValueError` aborts the constructor, modelled as `Except.error`. -/
def cwStructure (obs obs_se : List ℚ) (alt_dorms ref_dorms : List String)
    (covs1 : Covs) (study_id : Option (List ℚ)) : Except String CWData := do
  let num_obs := obs.length
  if cwCheck num_obs obs obs_se alt_dorms ref_dorms covs1 study_id then do
    let s0 := array_structure (alt_dorms ++ ref_dorms)
    let s1 := array_structure alt_dorms
    let s2 := array_structure ref_dorms
    let max_dorm ← dormAtMax s0.2.2 s0.2.1
    let min_dorm ← dormAtMin s0.2.2 s0.2.1
    let max_alt_dorm ← dormAtMax s1.2.2 s1.2.1
    let min_alt_dorm ← dormAtMin s1.2.2 s1.2.1
    let max_ref_dorm ← dormAtMax s2.2.2 s2.2.1
    -- lines 88–89: the source re-assigns `min_alt_dorm`, this time from
    -- the REFERENCE-only structure, discarding the value just computed;
    -- `min_ref_dorm` is never assigned.
    let min_alt_dorm ← dormAtMin s2.2.2 s2.2.1
    let dorm_idx := s0.2.2.enum.map (fun q => (q.2, q.1))
    let st :=
      match study_id with
      | none => (num_obs, List.replicate num_obs 1, none)
      | some sid =>
        let r := array_structure sid
        (r.1, r.2.1, some r.2.2)
    match study_id with
    | none =>
      pure { obs := obs, obs_se := obs_se, alt_dorms := alt_dorms,
             ref_dorms := ref_dorms, covs := covs1, study_id := none,
             num_obs := num_obs, num_covs := covs1.length,
             num_dorms := s0.1, dorm_sizes := s0.2.1, unique_dorms := s0.2.2,
             num_alt_dorms := s1.1, alt_dorm_sizes := s1.2.1,
             unique_alt_dorms := s1.2.2,
             num_ref_dorms := s2.1, ref_dorm_sizes := s2.2.1,
             unique_ref_dorms := s2.2.2,
             max_dorm := max_dorm, min_dorm := min_dorm,
             max_alt_dorm := max_alt_dorm, min_alt_dorm := min_alt_dorm,
             max_ref_dorm := max_ref_dorm, dorm_idx := dorm_idx,
             num_studies := st.1, study_sizes := st.2.1,
             unique_study_id := st.2.2 }
    | some sid =>
      let sort_id := argsortNumpy sid
      pure { obs := applyPerm sort_id obs, obs_se := applyPerm sort_id obs_se,
             alt_dorms := applyPerm sort_id alt_dorms,
             ref_dorms := applyPerm sort_id ref_dorms,
             covs := covs1.map (fun q => (q.1, applyPerm sort_id q.2)),
             study_id := some (applyPerm sort_id sid),
             num_obs := num_obs, num_covs := covs1.length,
             num_dorms := s0.1, dorm_sizes := s0.2.1, unique_dorms := s0.2.2,
             num_alt_dorms := s1.1, alt_dorm_sizes := s1.2.1,
             unique_alt_dorms := s1.2.2,
             num_ref_dorms := s2.1, ref_dorm_sizes := s2.2.1,
             unique_ref_dorms := s2.2.2,
             max_dorm := max_dorm, min_dorm := min_dorm,
             max_alt_dorm := max_alt_dorm, min_alt_dorm := min_alt_dorm,
             max_ref_dorm := max_ref_dorm, dorm_idx := dorm_idx,
             num_studies := st.1, study_sizes := st.2.1,
             unique_study_id := st.2.2 }
  else Except.error "input check failed"

/-- The observable outcome of `CWData(...)`: the constructed object or the
raised exception, the final state of the caller-supplied covariate
dictionary (which the constructor mutates in place, both on line 57 and
inside `sort_by_study_id`), and whether the empty-covariates warning
fired. -/
structure InitOutcome where
  result : Except String CWData
  callerCovs : Option Covs
  warned : Bool
  deriving Repr

/-- `CWData.__init__(obs, obs_se, alt_dorms, ref_dorms, covs, study_id,
add_intercept)`.  Label coercion `astype(str)` is the identity on the
embedding's label type.  `covs0 = none` models the default `covs=None`
(a fresh empty dict is created, so there is no caller dictionary to
mutate). -/
def CWData.init (obs obs_se : List ℚ) (alt_dorms ref_dorms : List String)
    (covs0 : Option Covs) (study_id : Option (List ℚ)) (add_intercept : Bool) :
    InitOutcome :=
  let num_obs := obs.length
  let step := interceptStep (covs0.getD []) num_obs add_intercept
  let res := cwStructure obs obs_se alt_dorms ref_dorms step.1 study_id
  { result := res
    callerCovs := covs0.map (fun _ =>
      match res with
      | Except.ok d => d.covs
      | Except.error _ => step.1)
    warned := step.2 }

/-! ### Inversion lemmas for the constructor -/

/-- If any `check()` assertion fails, the constructor raises. -/
theorem cwStructure_check_fail (obs obs_se : List ℚ) (alt_dorms ref_dorms : List String)
    (covs1 : Covs) (study_id : Option (List ℚ))
    (h : cwCheck obs.length obs obs_se alt_dorms ref_dorms covs1 study_id = false) :
    cwStructure obs obs_se alt_dorms ref_dorms covs1 study_id =
      Except.error "input check failed" := by
  unfold cwStructure
  rw [if_neg (by simp [h])]

theorem npArgmax_eq_none_iff (l : List ℕ) : npArgmax l = none ↔ l = [] := by
  cases l <;> simp [npArgmax]

theorem npArgmin_eq_none_iff (l : List ℕ) : npArgmin l = none ↔ l = [] := by
  cases l <;> simp [npArgmin]

/-- `unique_sorted[np.argmax(counts)]` as a total function (meaningful
when the counts are nonempty). -/
def extLabel (u : List String) (oi : Option ℕ) : String := u.getD (oi.getD 0) ""

theorem dormAtMax_ok (u : List String) (sizes : List ℕ) (h : sizes ≠ []) :
    dormAtMax u sizes = Except.ok (extLabel u (npArgmax sizes)) := by
  unfold dormAtMax extLabel
  rcases hm : npArgmax sizes with _ | i
  · exact absurd ((npArgmax_eq_none_iff sizes).mp hm) h
  · simp

theorem dormAtMin_ok (u : List String) (sizes : List ℕ) (h : sizes ≠ []) :
    dormAtMin u sizes = Except.ok (extLabel u (npArgmin sizes)) := by
  unfold dormAtMin extLabel
  rcases hm : npArgmin sizes with _ | i
  · exact absurd ((npArgmin_eq_none_iff sizes).mp hm) h
  · simp

theorem array_structure_unique_eq_nil {α : Type} [LinearOrder α] [DecidableEq α]
    [DecidableRel (fun a b : α => a ≤ b)]
    (l : List α) : (array_structure l).2.2 = [] ↔ l = [] := by
  unfold array_structure
  simp only
  constructor
  · intro h
    have := (List.perm_insertionSort (· ≤ ·) l.dedup).length_eq
    rw [h] at this
    have hd : l.dedup = [] := List.length_eq_zero.mp this.symm
    exact (List.dedup_eq_nil l).mp hd
  · intro h
    subst h
    simp

theorem array_structure_sizes_eq_nil {α : Type} [LinearOrder α] [DecidableEq α]
    [DecidableRel (fun a b : α => a ≤ b)]
    (l : List α) : (array_structure l).2.1 = [] ↔ l = [] := by
  rw [show (array_structure l).2.1 =
    (array_structure l).2.2.map (fun x => l.count x) from rfl]
  rw [List.map_eq_nil]
  exact array_structure_unique_eq_nil l

/-- The object a successful construction yields, as an explicit function
of the (intercept-augmented) inputs. -/
def cwBuild (obs obs_se : List ℚ) (alt_dorms ref_dorms : List String)
    (covs1 : Covs) (study_id : Option (List ℚ)) : CWData :=
  let num_obs := obs.length
  let s0 := array_structure (alt_dorms ++ ref_dorms)
  let s1 := array_structure alt_dorms
  let s2 := array_structure ref_dorms
  let st :=
    match study_id with
    | none => (num_obs, List.replicate num_obs 1, none)
    | some sid =>
      let r := array_structure sid
      (r.1, r.2.1, some r.2.2)
  let base : CWData :=
    { obs := obs, obs_se := obs_se, alt_dorms := alt_dorms,
      ref_dorms := ref_dorms, covs := covs1, study_id := none,
      num_obs := num_obs, num_covs := covs1.length,
      num_dorms := s0.1, dorm_sizes := s0.2.1, unique_dorms := s0.2.2,
      num_alt_dorms := s1.1, alt_dorm_sizes := s1.2.1,
      unique_alt_dorms := s1.2.2,
      num_ref_dorms := s2.1, ref_dorm_sizes := s2.2.1,
      unique_ref_dorms := s2.2.2,
      max_dorm := extLabel s0.2.2 (npArgmax s0.2.1),
      min_dorm := extLabel s0.2.2 (npArgmin s0.2.1),
      max_alt_dorm := extLabel s1.2.2 (npArgmax s1.2.1),
      min_alt_dorm := extLabel s2.2.2 (npArgmin s2.2.1),
      max_ref_dorm := extLabel s2.2.2 (npArgmax s2.2.1),
      dorm_idx := s0.2.2.enum.map (fun q => (q.2, q.1)),
      num_studies := st.1, study_sizes := st.2.1,
      unique_study_id := st.2.2 }
  match study_id with
  | none => base
  | some sid =>
    let sort_id := argsortNumpy sid
    { base with
      obs := applyPerm sort_id obs, obs_se := applyPerm sort_id obs_se,
      alt_dorms := applyPerm sort_id alt_dorms,
      ref_dorms := applyPerm sort_id ref_dorms,
      covs := covs1.map (fun q => (q.1, applyPerm sort_id q.2)),
      study_id := some (applyPerm sort_id sid) }

/-- Successful-construction inversion: when the checks pass and the label
arrays are nonempty, the constructor returns exactly `cwBuild`. -/
theorem cwStructure_ok_eq (obs obs_se : List ℚ) (alt_dorms ref_dorms : List String)
    (covs1 : Covs) (study_id : Option (List ℚ))
    (hcheck : cwCheck obs.length obs obs_se alt_dorms ref_dorms covs1 study_id = true)
    (halt : alt_dorms ≠ []) (href : ref_dorms ≠ []) :
    cwStructure obs obs_se alt_dorms ref_dorms covs1 study_id =
      Except.ok (cwBuild obs obs_se alt_dorms ref_dorms covs1 study_id) := by
  unfold cwStructure
  rw [if_pos hcheck]
  dsimp only
  rw [dormAtMax_ok _ _ (by
        rw [ne_eq, array_structure_sizes_eq_nil]
        simp [halt]),
      dormAtMin_ok _ _ (by
        rw [ne_eq, array_structure_sizes_eq_nil]
        simp [halt]),
      dormAtMax_ok _ _ (by rw [ne_eq, array_structure_sizes_eq_nil]; exact halt),
      dormAtMin_ok _ _ (by rw [ne_eq, array_structure_sizes_eq_nil]; exact halt),
      dormAtMax_ok _ _ (by rw [ne_eq, array_structure_sizes_eq_nil]; exact href),
      dormAtMin_ok _ _ (by rw [ne_eq, array_structure_sizes_eq_nil]; exact href)]
  cases study_id <;> simp [bind, Except.bind, pure, Except.pure, cwBuild]

/-! ### Facts about fancy indexing by an argsort permutation -/

theorem map_getD_range {α : Type} [Inhabited α] :
    ∀ (l : List α) (n : ℕ), l.length = n →
    (List.range n).map (fun i => l.getD i default) = l
  | [], 0, _ => by simp
  | x :: t, n + 1, h => by
    rw [List.range_succ_eq_map]
    simp only [List.map_cons, List.getD_cons_zero, List.map_map]
    congr 1
    rw [show ((fun i => (x :: t).getD i default) ∘ Nat.succ) =
      (fun i => t.getD i default) from funext fun i => by simp]
    exact map_getD_range t n (by simpa using h)
  | [], n + 1, h => by simp at h
  | x :: t, 0, h => by simp at h

theorem applyPerm_perm {α : Type} [Inhabited α] (σ : List ℕ) (l : List α) (n : ℕ)
    (hσ : σ.Perm (List.range n)) (hl : l.length = n) : (applyPerm σ l).Perm l := by
  unfold applyPerm
  refine (hσ.map _).trans ?_
  rw [map_getD_range l n hl]

theorem applyPerm_length {α : Type} [Inhabited α] (σ : List ℕ) (l : List α) :
    (applyPerm σ l).length = σ.length := by
  simp [applyPerm]

theorem applyPerm_replicate {α : Type} [Inhabited α] (σ : List ℕ) (n : ℕ) (c : α)
    (hσ : ∀ i ∈ σ, i < n) :
    applyPerm σ (List.replicate n c) = List.replicate σ.length c := by
  unfold applyPerm
  rw [List.eq_replicate]
  refine ⟨by simp, ?_⟩
  intro b hb
  obtain ⟨i, hi, rfl⟩ := List.mem_map.mp hb
  rw [List.getD_eq_getElem _ _ (by simpa using hσ i hi)]
  exact List.getElem_replicate c _

theorem applyPerm_zip {α β : Type} [Inhabited α] [Inhabited β] (σ : List ℕ)
    (la : List α) (lb : List β) (n : ℕ) (hσ : ∀ i ∈ σ, i < n)
    (ha : la.length = n) (hb : lb.length = n) :
    (applyPerm σ la).zip (applyPerm σ lb) = applyPerm σ (la.zip lb) := by
  unfold applyPerm
  rw [List.zip_map']
  refine List.map_congr_left ?_
  intro i hi
  have hin : i < n := hσ i hi
  rw [List.getD_eq_getElem la _ (by omega), List.getD_eq_getElem lb _ (by omega),
    List.getD_eq_getElem (la.zip lb) _ (by simp [List.length_zip]; omega),
    List.getElem_zip]

/-- Unpacking of the `check()` assertions. -/
theorem cwCheck_iff (n : ℕ) (obs obs_se : List ℚ) (alt_dorms ref_dorms : List String)
    (covs : Covs) (study_id : Option (List ℚ)) :
    cwCheck n obs obs_se alt_dorms ref_dorms covs study_id = true ↔
      obs.length = n ∧ obs_se.length = n ∧ (∀ x ∈ obs_se, 0 < x) ∧
      alt_dorms.length = n ∧ ref_dorms.length = n ∧
      (∀ q ∈ covs, q.2.length = n) ∧
      (∀ s, study_id = some s → s.length = n) := by
  unfold cwCheck is_numerical_array
  cases study_id <;>
    simp [List.all_eq_true, Bool.and_eq_true, and_assoc]

/-- With both label arrays empty (and the checks passing), line 80's
`np.argmax` raises on the empty counts sequence. -/
theorem cwStructure_empty_err (obs obs_se : List ℚ) (covs1 : Covs)
    (study_id : Option (List ℚ))
    (hcheck : cwCheck obs.length obs obs_se [] [] covs1 study_id = true) :
    cwStructure obs obs_se [] [] covs1 study_id =
      Except.error "attempt to get argmax of an empty sequence" := by
  unfold cwStructure
  rw [if_pos hcheck]
  dsimp only
  simp [array_structure, dormAtMax, npArgmax, bind, Except.bind]

/-- The projection of the constructor outcome onto the raw result. -/
theorem init_result_eq (obs obs_se : List ℚ) (alt_dorms ref_dorms : List String)
    (covs0 : Option Covs) (study_id : Option (List ℚ)) (add_intercept : Bool) :
    (CWData.init obs obs_se alt_dorms ref_dorms covs0 study_id add_intercept).result =
      cwStructure obs obs_se alt_dorms ref_dorms
        (interceptStep (covs0.getD []) obs.length add_intercept).1 study_id := rfl

/-- Success inversion for the full constructor: the checks passed, the
label arrays were nonempty, and the object is exactly `cwBuild`. -/
theorem init_ok_inv (obs obs_se : List ℚ) (alt_dorms ref_dorms : List String)
    (covs0 : Option Covs) (study_id : Option (List ℚ)) (add_intercept : Bool)
    (d : CWData)
    (h : (CWData.init obs obs_se alt_dorms ref_dorms covs0 study_id add_intercept).result =
      Except.ok d) :
    cwCheck obs.length obs obs_se alt_dorms ref_dorms
        (interceptStep (covs0.getD []) obs.length add_intercept).1 study_id = true ∧
    alt_dorms ≠ [] ∧ ref_dorms ≠ [] ∧
    d = cwBuild obs obs_se alt_dorms ref_dorms
        (interceptStep (covs0.getD []) obs.length add_intercept).1 study_id := by
  rw [init_result_eq] at h
  set covs1 := (interceptStep (covs0.getD []) obs.length add_intercept).1 with hc1
  rcases hB : cwCheck obs.length obs obs_se alt_dorms ref_dorms covs1 study_id with _ | _
  · rw [cwStructure_check_fail _ _ _ _ _ _ hB] at h
    exact absurd h (by simp)
  · have hup := (cwCheck_iff _ _ _ _ _ _ _).mp hB
    have hlen_alt : alt_dorms.length = obs.length := hup.2.2.2.1
    have hlen_ref : ref_dorms.length = obs.length := hup.2.2.2.2.1
    by_cases halt : alt_dorms = []
    · exfalso
      have href : ref_dorms = [] := by
        apply List.length_eq_zero.mp
        rw [hlen_ref, ← hlen_alt, halt, List.length_nil]
      rw [halt, href] at h hB
      rw [cwStructure_empty_err _ _ _ _ hB] at h
      exact absurd h (by simp)
    · have href : ref_dorms ≠ [] := by
        intro hnil
        apply halt
        apply List.length_eq_zero.mp
        rw [hlen_alt, ← hlen_ref, hnil, List.length_nil]
      rw [cwStructure_ok_eq _ _ _ _ _ _ hB halt href] at h
      exact ⟨rfl, halt, href, (Except.ok.inj h).symm⟩

/-- The intercept step never leaves the covariate dictionary empty. -/
theorem interceptStep_ne_nil (covs : Covs) (n : ℕ) (ai : Bool) :
    (interceptStep covs n ai).1 ≠ [] := by
  unfold interceptStep dictUpdate
  rcases covs with _ | ⟨q, rest⟩ <;> rcases ai <;> simp <;> split <;> simp

theorem find?_map_update (k : String) (v : List ℚ) :
    ∀ (d : Covs),
    (d.map (fun r => if r.1 = k then (k, v) else r)).find? (fun r => r.1 == k) =
      (d.find? (fun r => r.1 == k)).map (fun _ => (k, v))
  | [] => by simp
  | q :: d' => by
    by_cases hq : q.1 = k
    · rw [List.map_cons, if_pos hq, List.find?_cons_of_pos _ (by simp),
        List.find?_cons_of_pos _ (by simp [hq])]
      simp
    · rw [List.map_cons, if_neg hq, List.find?_cons_of_neg _ (by simp [hq]),
        List.find?_cons_of_neg _ (by simp [hq])]
      exact find?_map_update k v d'

/-- `dict.update({k: v})` makes `d[k] = v`. -/
theorem covLookup_dictUpdate_self (d : Covs) (k : String) (v : List ℚ) :
    covLookup (dictUpdate d k v) k = some v := by
  unfold dictUpdate covLookup
  by_cases hd : d.any (fun r => r.1 == k)
  · rw [if_pos hd, find?_map_update k v d]
    obtain ⟨r, hrmem⟩ := Option.isSome_iff_exists.mp
      (List.find?_isSome.mpr (List.any_eq_true.mp hd))
    rw [hrmem]
    simp
  · rw [if_neg hd, List.find?_append,
      List.find?_eq_none.mpr (by
        intro r hr
        exact (List.any_eq_false.mp (Bool.not_eq_true _ ▸ hd)) r hr)]
    simp [List.find?]

theorem mem_dictUpdate {d : Covs} {k : String} {v : List ℚ} {q : String × List ℚ}
    (hq : q ∈ dictUpdate d k v) : q ∈ d ∨ q = (k, v) := by
  unfold dictUpdate at hq
  split at hq
  · obtain ⟨r, hr, hrq⟩ := List.mem_map.mp hq
    split at hrq
    · right; exact hrq.symm
    · left; exact hrq ▸ hr
  · rcases List.mem_append.mp hq with h1 | h2
    · left; exact h1
    · right; simpa using h2

theorem mem_interceptStep {c : Covs} {n : ℕ} {ai : Bool} {q : String × List ℚ}
    (hq : q ∈ (interceptStep c n ai).1) :
    q ∈ c ∨ q = ("intercept", List.replicate n 1) := by
  unfold interceptStep at hq
  dsimp only at hq
  split at hq
  · exact mem_dictUpdate hq
  · exact Or.inl hq

/-! ### The claims -/

/-- C3: construction succeeds only if every standard error is strictly
positive: every successfully constructed aggregate carries only positive
`obs_se` entries, and any input with a non-positive entry is rejected with
no aggregate produced. -/
theorem claim_C3 (obs obs_se : List ℚ) (alt_dorms ref_dorms : List String)
    (covs0 : Option Covs) (study_id : Option (List ℚ)) (add_intercept : Bool) :
    (∀ d, (CWData.init obs obs_se alt_dorms ref_dorms covs0 study_id add_intercept).result =
        Except.ok d → ∀ x ∈ d.obs_se, 0 < x) ∧
    ((∃ x ∈ obs_se, x ≤ 0) →
      ∃ e, (CWData.init obs obs_se alt_dorms ref_dorms covs0 study_id add_intercept).result =
        Except.error e) := by
  constructor
  · intro d hd x hx
    obtain ⟨hB, halt, href, rfl⟩ := init_ok_inv _ _ _ _ _ _ _ _ hd
    have hup := (cwCheck_iff _ _ _ _ _ _ _).mp hB
    rcases study_id with _ | sid
    · rw [show (cwBuild obs obs_se alt_dorms ref_dorms _ none).obs_se = obs_se from by
        simp [cwBuild]] at hx
      exact hup.2.2.1 x hx
    · rw [show (cwBuild obs obs_se alt_dorms ref_dorms _ (some sid)).obs_se =
        applyPerm (argsortNumpy sid) obs_se from by simp [cwBuild]] at hx
      have hsl : sid.length = obs.length := hup.2.2.2.2.2.2 sid rfl
      have hol : obs_se.length = obs.length := hup.2.1
      have hperm : (applyPerm (argsortNumpy sid) obs_se).Perm obs_se :=
        applyPerm_perm _ _ sid.length (argsortNumpy_perm sid) (by omega)
      exact hup.2.2.1 x (hperm.mem_iff.mp hx)
  · rintro ⟨x, hx, hxle⟩
    rw [init_result_eq]
    rcases hB : cwCheck obs.length obs obs_se alt_dorms ref_dorms
      (interceptStep (covs0.getD []) obs.length add_intercept).1 study_id with _ | _
    · exact ⟨_, cwStructure_check_fail _ _ _ _ _ _ hB⟩
    · exact absurd ((cwCheck_iff _ _ _ _ _ _ _).mp hB |>.2.2.1 x hx) (not_lt.mpr hxle)

theorem claim_C3_witness :
    ∃ e, (CWData.init [1] [0] ["a"] ["b"] none none true).result = Except.error e :=
  (claim_C3 [1] [0] ["a"] ["b"] none none true).2 ⟨0, by simp, le_refl 0⟩

/-- C8: a construction without `study_id` over `n` observations has
`num_studies = n` and all study group sizes `1`, and performs no sort:
every parallel sequence (and the covariate dictionary) is kept exactly as
supplied (after the intercept step). -/
theorem claim_C8 (obs obs_se : List ℚ) (alt_dorms ref_dorms : List String)
    (covs0 : Option Covs) (add_intercept : Bool) (d : CWData)
    (h : (CWData.init obs obs_se alt_dorms ref_dorms covs0 none add_intercept).result =
      Except.ok d) :
    d.num_studies = obs.length ∧ d.study_sizes = List.replicate obs.length 1 ∧
    d.obs = obs ∧ d.obs_se = obs_se ∧ d.alt_dorms = alt_dorms ∧
    d.ref_dorms = ref_dorms ∧ d.study_id = none ∧
    d.covs = (interceptStep (covs0.getD []) obs.length add_intercept).1 := by
  obtain ⟨hB, halt, href, rfl⟩ := init_ok_inv _ _ _ _ _ _ _ _ h
  refine ⟨?_, ?_, ?_, ?_, ?_, ?_, ?_, ?_⟩ <;> simp [cwBuild]

theorem claim_C8_witness :
    (cwBuild [1] [1] ["a"] ["b"] [("intercept", [1])] none).num_studies = 1 ∧
    (cwBuild [1] [1] ["a"] ["b"] [("intercept", [1])] none).obs = [1] :=
  have h : (CWData.init [1] [1] ["a"] ["b"] none none true).result =
      Except.ok (cwBuild [1] [1] ["a"] ["b"] [("intercept", [1])] none) := by decide
  ⟨(claim_C8 [1] [1] ["a"] ["b"] none true _ h).1,
   (claim_C8 [1] [1] ["a"] ["b"] none true _ h).2.2.1⟩

/-- C5 as stated is refuted at a concrete input: the construction fails on
a non-positive standard error, no aggregate is produced, but the
caller-supplied covariates mapping has already been mutated — the
auto-intercept entry was inserted before validation ran. -/
theorem claim_C5_counterexample :
    (CWData.init [1] [0] ["a"] ["b"] (some [("x", [2])]) none true).result =
      Except.error "input check failed" ∧
    (CWData.init [1] [0] ["a"] ["b"] (some [("x", [2])]) none true).callerCovs =
      some [("x", [2]), ("intercept", [1])] ∧
    (CWData.init [1] [0] ["a"] ["b"] (some [("x", [2])]) none true).callerCovs ≠
      some [("x", [2])] := by
  refine ⟨rfl, rfl, ?_⟩
  simp only [show (CWData.init [1] [0] ["a"] ["b"] (some [("x", [2])]) none true).callerCovs =
    some [("x", [2]), ("intercept", [1])] from rfl]
  decide

/-- C5 amended: when any step-4 validation condition is violated the
construction is rejected as a whole — the single error value is returned
and no aggregate (partial or otherwise) is exposed — but the caller's
covariates mapping is NOT left unchanged: at the time of the failure it
already holds the state produced by the intercept step (in particular the
auto-inserted or overwritten `"intercept"` column when `add_intercept`
was in effect). -/
theorem claim_C5_amended (obs obs_se : List ℚ) (alt_dorms ref_dorms : List String)
    (covs0 : Option Covs) (study_id : Option (List ℚ)) (add_intercept : Bool)
    (hfail : cwCheck obs.length obs obs_se alt_dorms ref_dorms
      (interceptStep (covs0.getD []) obs.length add_intercept).1 study_id = false) :
    (CWData.init obs obs_se alt_dorms ref_dorms covs0 study_id add_intercept).result =
      Except.error "input check failed" ∧
    (CWData.init obs obs_se alt_dorms ref_dorms covs0 study_id add_intercept).callerCovs =
      covs0.map (fun _ => (interceptStep (covs0.getD []) obs.length add_intercept).1) := by
  have herr := cwStructure_check_fail obs obs_se alt_dorms ref_dorms
    (interceptStep (covs0.getD []) obs.length add_intercept).1 study_id hfail
  refine ⟨by rw [init_result_eq]; exact herr, ?_⟩
  unfold CWData.init
  dsimp only
  rw [herr]

theorem claim_C5_witness :
    (CWData.init [1] [-1] ["a"] ["b"] (some [("z", [7])]) none true).result =
      Except.error "input check failed" ∧
    (CWData.init [1] [-1] ["a"] ["b"] (some [("z", [7])]) none true).callerCovs =
      some [("z", [7]), ("intercept", [1])] := by
  have h := claim_C5_amended [1] [-1] ["a"] ["b"] (some [("z", [7])]) none true (by decide)
  exact ⟨h.1, h.2.trans (by decide)⟩

/-- C10: constructing from length-0 inputs fails — the `check()`
assertions all pass on empty arrays, but line 80 takes `np.argmax` of the
empty per-value-counts sequence, which raises — so no aggregate is ever
produced from empty inputs. -/
theorem claim_C10 (covs0 : Option Covs) (study_id : Option (List ℚ)) (add_intercept : Bool)
    (hcov : ∀ q ∈ covs0.getD [], q.2 = ([] : List ℚ))
    (hstudy : study_id = none ∨ study_id = some []) :
    (CWData.init [] [] [] [] covs0 study_id add_intercept).result =
      Except.error "attempt to get argmax of an empty sequence" ∧
    cwCheck 0 [] [] [] [] (interceptStep (covs0.getD []) 0 add_intercept).1 study_id = true := by
  have hcheck : cwCheck 0 [] [] [] []
      (interceptStep (covs0.getD []) 0 add_intercept).1 study_id = true := by
    rw [cwCheck_iff]
    refine ⟨rfl, rfl, by simp, rfl, rfl, ?_, ?_⟩
    · intro q hq
      rcases mem_interceptStep hq with hmem | rfl
      · rw [hcov q hmem]; rfl
      · simp
    · intro s hs
      rcases hstudy with rfl | rfl
      · exact absurd hs (by simp)
      · rw [← Option.some.inj hs]
        rfl
  exact ⟨by rw [init_result_eq]; exact cwStructure_empty_err [] [] _ study_id hcheck, hcheck⟩

theorem claim_C10_witness :
    (CWData.init [] [] [] [] none none true).result =
      Except.error "attempt to get argmax of an empty sequence" :=
  (claim_C10 none none true (by simp) (Or.inl rfl)).1

/-- Lookup in a dictionary whose columns were all permuted. -/
theorem covLookup_map_applyPerm (σ : List ℕ) (c : Covs) (k : String) :
    covLookup (c.map (fun q => (q.1, applyPerm σ q.2))) k =
      (covLookup c k).map (applyPerm σ) := by
  unfold covLookup
  induction c with
  | nil => simp
  | cons q c ih =>
    by_cases hq : q.1 == k
    · simp [List.find?_cons, hq]
    · simp only [List.map_cons, List.find?_cons, hq, cond_false]
      exact ih

/-- With `add_intercept` in effect the dictionary after the intercept step
is exactly `dict.update({'intercept': ones})`. -/
theorem interceptStep_true (c : Covs) (n : ℕ) :
    (interceptStep c n true).1 = dictUpdate c "intercept" (List.replicate n 1) := by
  simp [interceptStep]

/-- C6: constructing with an empty covariates mapping and
`add_intercept = false` still succeeds (on otherwise valid input), emits
the warning, and the aggregate carries an all-ones `"intercept"` column;
moreover no successful construction ever has zero covariates. -/
theorem claim_C6 :
    (∀ (obs obs_se : List ℚ) (alt_dorms ref_dorms : List String) (covs0 : Option Covs)
      (study_id : Option (List ℚ)),
      covs0.getD [] = [] →
      obs_se.length = obs.length → (∀ x ∈ obs_se, 0 < x) →
      alt_dorms.length = obs.length → ref_dorms.length = obs.length →
      (∀ s, study_id = some s → s.length = obs.length) →
      0 < obs.length →
      (CWData.init obs obs_se alt_dorms ref_dorms covs0 study_id false).warned = true ∧
      ∃ d, (CWData.init obs obs_se alt_dorms ref_dorms covs0 study_id false).result =
          Except.ok d ∧
        covLookup d.covs "intercept" = some (List.replicate obs.length 1)) ∧
    (∀ (obs obs_se : List ℚ) (alt_dorms ref_dorms : List String) (covs0 : Option Covs)
      (study_id : Option (List ℚ)) (add_intercept : Bool) (d : CWData),
      (CWData.init obs obs_se alt_dorms ref_dorms covs0 study_id add_intercept).result =
        Except.ok d →
      0 < d.num_covs) := by
  constructor
  · intro obs obs_se alt_dorms ref_dorms covs0 study_id hc0 hsel hpos halt href hstudy hn
    have hic : (interceptStep (covs0.getD []) obs.length false).1 =
        [("intercept", List.replicate obs.length 1)] := by
      rw [hc0]
      simp [interceptStep, dictUpdate]
    have hwarn : (interceptStep (covs0.getD []) obs.length false).2 = true := by
      rw [hc0]
      simp [interceptStep]
    have hcheck : cwCheck obs.length obs obs_se alt_dorms ref_dorms
        (interceptStep (covs0.getD []) obs.length false).1 study_id = true := by
      rw [cwCheck_iff]
      refine ⟨rfl, hsel, hpos, halt, href, ?_, hstudy⟩
      intro q hq
      rw [hic] at hq
      rcases List.mem_cons.mp hq with rfl | hq2
      · simp
      · simp at hq2
    have haltne : alt_dorms ≠ [] := List.ne_nil_of_length_pos (by omega)
    have hrefne : ref_dorms ≠ [] := List.ne_nil_of_length_pos (by omega)
    refine ⟨by rw [show (CWData.init obs obs_se alt_dorms ref_dorms covs0 study_id
        false).warned = (interceptStep (covs0.getD []) obs.length false).2 from rfl,
        hwarn], ?_⟩
    refine ⟨cwBuild obs obs_se alt_dorms ref_dorms
      (interceptStep (covs0.getD []) obs.length false).1 study_id, ?_, ?_⟩
    · rw [init_result_eq]
      exact cwStructure_ok_eq _ _ _ _ _ _ hcheck haltne hrefne
    · rcases study_id with _ | sid
      · rw [show (cwBuild obs obs_se alt_dorms ref_dorms
          (interceptStep (covs0.getD []) obs.length false).1 none).covs =
          (interceptStep (covs0.getD []) obs.length false).1 from by simp [cwBuild], hic]
        simp [covLookup, List.find?]
      · rw [show (cwBuild obs obs_se alt_dorms ref_dorms
          (interceptStep (covs0.getD []) obs.length false).1 (some sid)).covs =
          (interceptStep (covs0.getD []) obs.length false).1.map
            (fun q => (q.1, applyPerm (argsortNumpy sid) q.2)) from by simp [cwBuild],
          hic]
        have hσlen : (argsortNumpy sid).length = obs.length := by
          rw [argsortNumpy_length, hstudy sid rfl]
        have hones : applyPerm (argsortNumpy sid) (List.replicate obs.length (1 : ℚ)) =
            List.replicate obs.length 1 := by
          rw [applyPerm_replicate _ _ _ (fun i hi => by
            rw [← hstudy sid rfl]
            exact argsortNumpy_mem_lt sid hi), hσlen]
        simp [covLookup, List.find?, hones]
  · intro obs obs_se alt_dorms ref_dorms covs0 study_id add_intercept d h
    obtain ⟨hB, haltne, hrefne, rfl⟩ := init_ok_inv _ _ _ _ _ _ _ _ h
    have hnum : (cwBuild obs obs_se alt_dorms ref_dorms
        (interceptStep (covs0.getD []) obs.length add_intercept).1 study_id).num_covs =
        (interceptStep (covs0.getD []) obs.length add_intercept).1.length := by
      rcases study_id with _ | sid <;> simp [cwBuild]
    rw [hnum]
    exact List.length_pos.mpr (interceptStep_ne_nil _ _ _)

theorem claim_C6_witness :
    (CWData.init [1] [1] ["x"] ["y"] (some []) none false).warned = true ∧
    ∃ d, (CWData.init [1] [1] ["x"] ["y"] (some []) none false).result = Except.ok d ∧
      covLookup d.covs "intercept" = some (List.replicate 1 1) :=
  claim_C6.1 [1] [1] ["x"] ["y"] (some []) none rfl rfl
    (by intro x hx; simp at hx; simp [hx]) rfl rfl (by intro s hs; exact absurd hs (by simp))
    (by decide)

/-- C4 as stated is refuted at a concrete input: the caller supplies an
`"intercept"` covariate `[5]` and leaves `add_intercept` at its default
`true`; the resulting aggregate's intercept column is all ones, not the
caller's column, and the caller's own mapping has been mutated the same
way. -/
theorem claim_C4_counterexample :
    (CWData.init [4] [1] ["a"] ["b"] (some [("intercept", [5])]) none true).result.toOption.map
        (fun d => covLookup d.covs "intercept") = some (some [1]) ∧
    (CWData.init [4] [1] ["a"] ["b"] (some [("intercept", [5])]) none true).result.toOption.map
        (fun d => covLookup d.covs "intercept") ≠ some (some [5]) ∧
    (CWData.init [4] [1] ["a"] ["b"] (some [("intercept", [5])]) none true).callerCovs =
      some [("intercept", [1])] := by
  exact ⟨by decide, by decide, by decide⟩

/-- C4 amended: apart from the empty-covariates self-correction, the
constructor does silently alter caller-supplied input through the shared
covariate dictionary; in particular, when the caller supplies an
`"intercept"` covariate and leaves `add_intercept` at its default `true`,
that column is OVERWRITTEN with all ones — in the aggregate and, in
place, in the caller's mapping (which on success aliases the aggregate's
dictionary). -/
theorem claim_C4_amended (obs obs_se : List ℚ) (alt_dorms ref_dorms : List String)
    (c0 : Covs) (study_id : Option (List ℚ)) (d : CWData)
    (h : (CWData.init obs obs_se alt_dorms ref_dorms (some c0) study_id true).result =
      Except.ok d) :
    covLookup d.covs "intercept" = some (List.replicate obs.length 1) ∧
    (CWData.init obs obs_se alt_dorms ref_dorms (some c0) study_id true).callerCovs =
      some d.covs := by
  obtain ⟨hB, haltne, hrefne, hd⟩ := init_ok_inv _ _ _ _ _ _ _ _ h
  have hup := (cwCheck_iff _ _ _ _ _ _ _).mp hB
  constructor
  · subst hd
    rcases study_id with _ | sid
    · rw [show (cwBuild obs obs_se alt_dorms ref_dorms
        (interceptStep ((some c0).getD []) obs.length true).1 none).covs =
        (interceptStep ((some c0).getD []) obs.length true).1 from by simp [cwBuild]]
      rw [show ((some c0).getD [] : Covs) = c0 from rfl, interceptStep_true]
      exact covLookup_dictUpdate_self c0 "intercept" _
    · rw [show (cwBuild obs obs_se alt_dorms ref_dorms
        (interceptStep ((some c0).getD []) obs.length true).1 (some sid)).covs =
        (interceptStep ((some c0).getD []) obs.length true).1.map
          (fun q => (q.1, applyPerm (argsortNumpy sid) q.2)) from by simp [cwBuild]]
      rw [covLookup_map_applyPerm]
      rw [show ((some c0).getD [] : Covs) = c0 from rfl, interceptStep_true,
        covLookup_dictUpdate_self c0 "intercept" _]
      have hsl : sid.length = obs.length := hup.2.2.2.2.2.2 sid rfl
      rw [Option.map_some']
      congr 1
      rw [applyPerm_replicate _ _ _ (fun i hi => by
        rw [← hsl]
        exact argsortNumpy_mem_lt sid hi), argsortNumpy_length, hsl]
  · rw [init_result_eq] at h
    unfold CWData.init
    dsimp only
    rw [h]
    rfl

theorem claim_C4_witness :
    covLookup (cwBuild [4] [1] ["a"] ["b"] [("intercept", [1])] none).covs "intercept" =
      some (List.replicate 1 1) :=
  (claim_C4_amended [4] [1] ["a"] ["b"] [("intercept", [5])] none _ (by decide)).1

/-- Every entry of the rank dictionary points back at its position in the
sorted-unique sequence. -/
theorem enum_swap_mem {α : Type} [Inhabited α] (u : List α) (q : α × ℕ)
    (hq : q ∈ u.enum.map (fun r => (r.2, r.1))) :
    u.getD q.2 default = q.1 ∧ q.2 < u.length := by
  obtain ⟨⟨i, a⟩, hr, rfl⟩ := List.mem_map.mp hq
  obtain ⟨hlt, hget⟩ := List.getElem?_eq_some.mp (List.mem_enum_iff_getElem?.mp hr)
  refine ⟨?_, hlt⟩
  rw [List.getD_eq_getElem u default hlt]
  exact hget

/-- C7: `definition_index` maps exactly the sorted-unique union labels to
their zero-based rank, as on the concrete P5 example. -/
theorem claim_C7 :
    (∀ (obs obs_se : List ℚ) (alt_dorms ref_dorms : List String) (covs0 : Option Covs)
      (study_id : Option (List ℚ)) (add_intercept : Bool) (d : CWData),
      (CWData.init obs obs_se alt_dorms ref_dorms covs0 study_id add_intercept).result =
        Except.ok d →
      d.dorm_idx.map Prod.fst = (array_structure (alt_dorms ++ ref_dorms)).2.2 ∧
      ∀ q ∈ d.dorm_idx,
        (array_structure (alt_dorms ++ ref_dorms)).2.2.getD q.2 "" = q.1 ∧
        q.2 < (array_structure (alt_dorms ++ ref_dorms)).2.2.length) ∧
    ((CWData.init [1, 2, 3] [1, 1, 1] ["A", "B", "A"] ["B", "C", "A"]
        none none true).result.toOption.map
      (fun d => (d.dorm_idx, d.unique_dorms, d.dorm_sizes, d.num_dorms)) =
      some ([("A", 0), ("B", 1), ("C", 2)], ["A", "B", "C"], [3, 2, 1], 3)) := by
  constructor
  · intro obs obs_se alt_dorms ref_dorms covs0 study_id add_intercept d h
    obtain ⟨hB, haltne, hrefne, rfl⟩ := init_ok_inv _ _ _ _ _ _ _ _ h
    have hidx : (cwBuild obs obs_se alt_dorms ref_dorms
        (interceptStep (covs0.getD []) obs.length add_intercept).1 study_id).dorm_idx =
        (array_structure (alt_dorms ++ ref_dorms)).2.2.enum.map (fun r => (r.2, r.1)) := by
      rcases study_id with _ | sid <;> simp [cwBuild]
    rw [hidx]
    constructor
    · rw [List.map_map]
      rw [show ((Prod.fst ∘ fun r : ℕ × String => (r.2, r.1)) = Prod.snd) from rfl]
      exact List.enum_map_snd _
    · intro q hq
      exact enum_swap_mem _ q hq
  · decide

/-- C1: the claim is right about the intent and the code is wrong.  At the
failing input the alt-only minimum-size definition is `"B"`, but the
object's `min_alt_dorm` attribute holds `"C"` — the REF-only minimum —
because lines 88–89 re-assign `min_alt_dorm` instead of `min_ref_dorm`,
and no `min_ref_dorm` attribute is ever created (the `CWData` record
correspondingly has no such field). -/
theorem claim_C1_code_bug :
    (CWData.init [1, 2, 3] [1, 1, 1] ["A", "A", "B"] ["C", "D", "D"]
        none none true).result.toOption.map CWData.min_alt_dorm = some "C" ∧
    (CWData.init [1, 2, 3] [1, 1, 1] ["A", "A", "B"] ["C", "D", "D"]
        none none true).result.toOption.map
      (fun d => extLabel d.unique_alt_dorms (npArgmin d.alt_dorm_sizes)) = some "B" ∧
    (CWData.init [1, 2, 3] [1, 1, 1] ["A", "A", "B"] ["C", "D", "D"]
        none none true).result.toOption.map
      (fun d => extLabel d.unique_ref_dorms (npArgmin d.ref_dorm_sizes)) = some "C" := by
  exact ⟨by decide, by decide, by decide⟩

theorem claim_C7_witness :
    (cwBuild [1, 2, 3] [1, 1, 1] ["A", "B", "A"] ["B", "C", "A"]
        [("intercept", [1, 1, 1])] none).dorm_idx.map Prod.fst =
      (array_structure (["A", "B", "A"] ++ ["B", "C", "A"])).2.2 :=
  (claim_C7.1 [1, 2, 3] [1, 1, 1] ["A", "B", "A"] ["B", "C", "A"] none none true _
    (by decide)).1

set_option maxRecDepth 8000 in
/-- C2 as stated is refuted at a concrete input: 17 records share one
`study_id`, so stability demands the record order be preserved exactly,
but numpy's default quicksort is past its insertion-sort regime and
reorders the tied records. -/
theorem claim_C2_counterexample :
    (CWData.init ((List.range 17).map (fun i => (i : ℚ))) (List.replicate 17 1)
        (List.replicate 17 "a") (List.replicate 17 "b") none
        (some (List.replicate 17 5)) true).result.toOption.map CWData.study_id =
      some (some (List.replicate 17 5)) ∧
    (CWData.init ((List.range 17).map (fun i => (i : ℚ))) (List.replicate 17 1)
        (List.replicate 17 "a") (List.replicate 17 "b") none
        (some (List.replicate 17 5)) true).result.toOption.map CWData.obs ≠
      some ((List.range 17).map (fun i => (i : ℚ))) := by
  exact ⟨by decide, by decide⟩

theorem idxLe_key_le {v : List ℚ} {i j : ℕ} (h : idxLe v i j) :
    keyAt v i ≤ keyAt v j := by
  rcases h with h | ⟨h, _⟩
  · exact le_of_lt h
  · exact le_of_eq h

/-- C2 amended: for every construction with `study_id` — whatever the
number of observations — the aggregate is sorted in non-decreasing order
of `study_id` (numpy's introsort sorts through its partition, insertion
and heapsort paths alike); the stability part of the claim holds only up
to 16 observations, where `np.argsort` runs its stable insertion-sort
pass so tied records keep their original relative order, and the P4
example behaves exactly as stated; with more than 16 observations the
default quicksort can reorder ties. -/
theorem claim_C2_amended :
    (∀ (obs obs_se : List ℚ) (alt_dorms ref_dorms : List String) (covs0 : Option Covs)
      (sid : List ℚ) (ai : Bool) (d : CWData),
      (CWData.init obs obs_se alt_dorms ref_dorms covs0 (some sid) ai).result =
        Except.ok d →
      (∃ s', d.study_id = some s' ∧ s'.Sorted (· ≤ ·)) ∧
      (obs.length ≤ 16 →
        ∀ (p q : Fin (argsortNumpy sid).length), p < q →
        keyAt sid ((argsortNumpy sid).get p) = keyAt sid ((argsortNumpy sid).get q) →
        (argsortNumpy sid).get p < (argsortNumpy sid).get q)) ∧
    ((CWData.init [10, 11, 12, 13] [1, 1, 1, 1] ["a", "a", "a", "a"] ["b", "b", "b", "b"]
        none (some [3, 1, 2, 1]) true).result.toOption.map
      (fun d => (d.study_id, d.obs)) = some (some [1, 1, 2, 3], [11, 13, 12, 10])) := by
  constructor
  · intro obs obs_se alt_dorms ref_dorms covs0 sid ai d h
    obtain ⟨hB, haltne, hrefne, rfl⟩ := init_ok_inv _ _ _ _ _ _ _ _ h
    constructor
    · refine ⟨applyPerm (argsortNumpy sid) sid, by simp [cwBuild], ?_⟩
      show ((argsortNumpy sid).map (fun i => sid.getD i 0)).Sorted (· ≤ ·)
      exact List.Pairwise.map _ (fun a b hab => hab) (argsortNumpy_pairwise_keys sid)
    · intro h16 p q hpq heq
      have hup := (cwCheck_iff _ _ _ _ _ _ _).mp hB
      have hsl : sid.length = obs.length := hup.2.2.2.2.2.2 sid rfl
      have hsorted : (argsortNumpy sid).Sorted (idxLe sid) :=
        argsortNumpy_sorted_small sid (by omega)
      have hrel := hsorted.rel_get_of_lt hpq
      rcases hrel with hlt | ⟨_, hle⟩
      · rw [heq] at hlt
        exact absurd hlt (lt_irrefl _)
      · refine lt_of_le_of_ne hle ?_
        intro hcon
        have := ((argsortNumpy_nodup sid).get_inj_iff).mp hcon
        exact absurd (this ▸ hpq) (lt_irrefl q)
  · decide

theorem claim_C2_witness :
    ∃ s', (cwBuild [10, 11, 12, 13] [1, 1, 1, 1] ["a", "a", "a", "a"] ["b", "b", "b", "b"]
      [("intercept", [1, 1, 1, 1])] (some [3, 1, 2, 1])).study_id = some s' ∧
      s'.Sorted (· ≤ ·) :=
  (claim_C2_amended.1 [10, 11, 12, 13] [1, 1, 1, 1] ["a", "a", "a", "a"]
    ["b", "b", "b", "b"] none [3, 1, 2, 1] true _ (by decide)).1

/-- C9: with `study_id` present, the single permutation `argsort(study)`
— a permutation of `0..n-1` — is applied identically and in lock-step to
every parallel sequence and every covariate column, so records stay
together and their multiset is preserved, and every sequence of the
aggregate still has length `num_obs`. -/
theorem claim_C9 (obs obs_se : List ℚ) (alt_dorms ref_dorms : List String)
    (covs0 : Option Covs) (sid : List ℚ) (ai : Bool) (d : CWData)
    (h : (CWData.init obs obs_se alt_dorms ref_dorms covs0 (some sid) ai).result =
      Except.ok d) :
    (argsortNumpy sid).Perm (List.range obs.length) ∧
    d.obs = applyPerm (argsortNumpy sid) obs ∧
    d.obs_se = applyPerm (argsortNumpy sid) obs_se ∧
    d.alt_dorms = applyPerm (argsortNumpy sid) alt_dorms ∧
    d.ref_dorms = applyPerm (argsortNumpy sid) ref_dorms ∧
    d.study_id = some (applyPerm (argsortNumpy sid) sid) ∧
    d.covs = (interceptStep (covs0.getD []) obs.length ai).1.map
      (fun q => (q.1, applyPerm (argsortNumpy sid) q.2)) ∧
    (d.obs.zip (d.obs_se.zip (d.alt_dorms.zip d.ref_dorms))).Perm
      (obs.zip (obs_se.zip (alt_dorms.zip ref_dorms))) ∧
    d.obs.length = d.num_obs ∧ d.obs_se.length = d.num_obs ∧
    d.alt_dorms.length = d.num_obs ∧ d.ref_dorms.length = d.num_obs ∧
    (∀ q ∈ d.covs, q.2.length = d.num_obs) ∧
    (∀ s', d.study_id = some s' → s'.length = d.num_obs) := by
  obtain ⟨hB, haltne, hrefne, rfl⟩ := init_ok_inv _ _ _ _ _ _ _ _ h
  have hup := (cwCheck_iff _ _ _ _ _ _ _).mp hB
  have hsl : sid.length = obs.length := hup.2.2.2.2.2.2 sid rfl
  have hperm : (argsortNumpy sid).Perm (List.range obs.length) := by
    rw [← hsl]
    exact argsortNumpy_perm sid
  have hmem : ∀ i ∈ argsortNumpy sid, i < obs.length := fun i hi => by
    rw [← hsl]
    exact argsortNumpy_mem_lt sid hi
  have hσlen : (argsortNumpy sid).length = obs.length := by
    rw [argsortNumpy_length, hsl]
  set covs1 := (interceptStep (covs0.getD []) obs.length ai).1 with hc1
  have hobs : (cwBuild obs obs_se alt_dorms ref_dorms covs1 (some sid)).obs =
      applyPerm (argsortNumpy sid) obs := by simp [cwBuild]
  have hobs_se : (cwBuild obs obs_se alt_dorms ref_dorms covs1 (some sid)).obs_se =
      applyPerm (argsortNumpy sid) obs_se := by simp [cwBuild]
  have halts : (cwBuild obs obs_se alt_dorms ref_dorms covs1 (some sid)).alt_dorms =
      applyPerm (argsortNumpy sid) alt_dorms := by simp [cwBuild]
  have hrefs : (cwBuild obs obs_se alt_dorms ref_dorms covs1 (some sid)).ref_dorms =
      applyPerm (argsortNumpy sid) ref_dorms := by simp [cwBuild]
  have hstudy : (cwBuild obs obs_se alt_dorms ref_dorms covs1 (some sid)).study_id =
      some (applyPerm (argsortNumpy sid) sid) := by simp [cwBuild]
  have hcovs : (cwBuild obs obs_se alt_dorms ref_dorms covs1 (some sid)).covs =
      covs1.map (fun q => (q.1, applyPerm (argsortNumpy sid) q.2)) := by simp [cwBuild]
  have hnum : (cwBuild obs obs_se alt_dorms ref_dorms covs1 (some sid)).num_obs =
      obs.length := by simp [cwBuild]
  refine ⟨hperm, hobs, hobs_se, halts, hrefs, hstudy, hcovs, ?_, ?_, ?_, ?_, ?_, ?_, ?_⟩
  · rw [hobs, hobs_se, halts, hrefs]
    have hzr : (alt_dorms.zip ref_dorms).length = obs.length := by
      rw [List.length_zip, hup.2.2.2.1, hup.2.2.2.2.1]
      omega
    rw [applyPerm_zip _ alt_dorms ref_dorms obs.length hmem hup.2.2.2.1 hup.2.2.2.2.1]
    rw [applyPerm_zip _ obs_se (alt_dorms.zip ref_dorms) obs.length hmem hup.2.1 hzr]
    rw [applyPerm_zip _ obs (obs_se.zip (alt_dorms.zip ref_dorms)) obs.length hmem rfl
      (by rw [List.length_zip, hup.2.1, hzr]; omega)]
    refine applyPerm_perm _ _ obs.length hperm ?_
    rw [List.length_zip, List.length_zip, hup.2.1, hzr]
    omega
  · rw [hobs, hnum, applyPerm_length, hσlen]
  · rw [hobs_se, hnum, applyPerm_length, hσlen]
  · rw [halts, hnum, applyPerm_length, hσlen]
  · rw [hrefs, hnum, applyPerm_length, hσlen]
  · intro q hq
    rw [hcovs] at hq
    obtain ⟨r, _, rfl⟩ := List.mem_map.mp hq
    rw [hnum]
    show (applyPerm (argsortNumpy sid) r.2).length = obs.length
    rw [applyPerm_length, hσlen]
  · intro s' hs'
    rw [hstudy] at hs'
    rw [← Option.some.inj hs', hnum, applyPerm_length, hσlen]

theorem claim_C9_witness :
    (argsortNumpy [3, 1, 2, 1]).Perm (List.range 4) ∧
    (cwBuild [10, 11, 12, 13] [1, 1, 1, 1] ["a", "a", "a", "a"] ["b", "b", "b", "b"]
      [("intercept", [1, 1, 1, 1])] (some [3, 1, 2, 1])).obs =
      applyPerm (argsortNumpy [3, 1, 2, 1]) [10, 11, 12, 13] :=
  have h := claim_C9 [10, 11, 12, 13] [1, 1, 1, 1] ["a", "a", "a", "a"]
    ["b", "b", "b", "b"] none [3, 1, 2, 1] true _ (by decide)
  ⟨h.1, h.2.1⟩

end CrossWalk

